import Mathlib

/-!
# Verification of the ecommerce-crawler crawl engine

Shallow embedding of the repository's crawl engine and URL helpers:

* `src/crawler/utils/url_helpers.py` and the identical helper copies at the
  top of `src/direct_crawler.py` (`is_valid_url`, `normalize_url`,
  `clean_url`, `get_domain`, `is_product_url`, `is_same_domain`);
* the CPython `urllib.parse` routines those helpers call
  (`urlparse`/`urlsplit`, `urlunparse`/`urlunsplit`, `ParseResult.geturl`),
  translated from `Lib/urllib/parse.py` of Python 3.11;
* the `re` patterns used by the helpers, translated to their exact
  matching semantics on strings (the patterns are all literal text,
  optional single characters, `$` anchors, and the
  `utm_[a-zA-Z]+=[^&]*&?` substitution of `clean_url`);
* the external `tldextract` library used by `get_domain` /
  `is_same_domain`, modelled from its documented contract;
* the crawl loop `SimpleEcommerceCrawler.crawl` of `src/direct_crawler.py`,
  with the external fetch capability (`requests` + `BeautifulSoup`) passed
  in as abstract functions, exactly as the spec declares them external;
* the Scrapy pipelines of `src/crawler/pipelines.py`
  (`DuplicatesPipeline`, `OutputPipeline`) and the item construction of
  `src/crawler/spiders/ecommerce_spider.py`.

All strings are processed as `List Char`; `String` is used at the
boundaries.  Machine-level caveats of the model are noted at each
definition.
-/

/-! ## Generic list-of-characters utilities -/

/-- `s.find(sep)` followed by the split `s[:i], s[i+1:]`:
splits at the first occurrence of `sep`, or `none` if absent. -/
def splitOnce (sep : Char) : List Char → Option (List Char × List Char)
  | [] => none
  | c :: cs =>
    if c = sep then some ([], cs)
    else
      match splitOnce sep cs with
      | some (a, b) => some (c :: a, b)
      | none => none

/-- Split at the last occurrence of `sep` (Python `rfind`). -/
def rsplitOnce (sep : Char) : List Char → Option (List Char × List Char)
  | [] => none
  | c :: cs =>
    match rsplitOnce sep cs with
    | some (a, b) => some (c :: a, b)
    | none => if c = sep then some ([], cs) else none

/-- Boolean test: does `needle` occur at the head of `hay`? -/
def hasPrefixCh : List Char → List Char → Bool
  | [], _ => true
  | _ :: _, [] => false
  | a :: as, b :: bs => a = b && hasPrefixCh as bs

/-- Boolean substring test (the semantics of `re.search` on a pattern of
literal characters). -/
def containsSub (needle : List Char) : List Char → Bool
  | [] => hasPrefixCh needle []
  | c :: cs => hasPrefixCh needle (c :: cs) || containsSub needle cs

/-- Boolean suffix test (the semantics of `re.search` on `lit$`). -/
def endsWithCh (suffix hay : List Char) : Bool :=
  hasPrefixCh suffix.reverse hay.reverse

/-- ASCII lower-casing of one character (Python `str.lower` restricted to
ASCII; it is only ever applied to scheme strings, which have passed the
ASCII-only `scheme_chars` test). -/
def lowerC (c : Char) : Char :=
  if 65 ≤ c.toNat ∧ c.toNat ≤ 90 then Char.ofNat (c.toNat + 32) else c

def toLowerL (l : List Char) : List Char := l.map lowerC

/-- ASCII letter (`[a-zA-Z]` in a Python regex; also
`c.isascii() and c.isalpha()`). -/
def isAsciiAlphaCh (c : Char) : Bool :=
  (65 ≤ c.toNat && c.toNat ≤ 90) || (97 ≤ c.toNat && c.toNat ≤ 122)

def isAsciiDigitCh (c : Char) : Bool :=
  48 ≤ c.toNat && c.toNat ≤ 57

/-! ## Model of CPython `urllib.parse` (Lib/urllib/parse.py, Python 3.11)

Faithful to the stdlib for `str` input whose netloc contains no `[`/`]`
brackets and no non-ASCII characters (bracketed or non-ASCII netlocs can
raise `ValueError`; theorems that need totality state bracket-freedom as a
hypothesis).  `allow_fragments` is always `True`, as in the repository. -/

/-- Characters valid in scheme names (`scheme_chars` in parse.py). -/
def scheme_chars (c : Char) : Bool :=
  isAsciiAlphaCh c || isAsciiDigitCh c || c = '+' || c = '-' || c = '.'

/-- `urlsplit` preprocessing: `url.lstrip(_WHATWG_C0_CONTROL_OR_SPACE)`
followed by removal of every tab, CR and LF
(`_UNSAFE_URL_BYTES_TO_REMOVE`). -/
def wsClean (l : List Char) : List Char :=
  (l.dropWhile (fun c => c.toNat ≤ 32)).filter
    (fun c => !(c = '\t' || c = '\r' || c = '\n'))

/-- The scheme phase of `urlsplit`:
`i = url.find(':')`; split when `i > 0`, `url[0]` is an ASCII letter and
every character before the colon is a scheme character; the scheme is
lower-cased. -/
def schemeSplit (url : List Char) : List Char × List Char :=
  match splitOnce ':' url with
  | some (before, after) =>
    if !before.isEmpty && (match before with
        | c :: _ => isAsciiAlphaCh c
        | [] => false) && before.all scheme_chars
    then (toLowerL before, after)
    else ([], url)
  | none => ([], url)

/-- `_splitnetloc`: take characters up to the first of `/`, `?`, `#`. -/
def takeNetloc : List Char → List Char × List Char
  | [] => ([], [])
  | c :: cs =>
    if c = '/' || c = '?' || c = '#' then ([], c :: cs)
    else
      let (a, b) := takeNetloc cs
      (c :: a, b)

/-- The netloc phase of `urlsplit`: only when the remainder starts with
`//`. -/
def netlocSplit (url : List Char) : List Char × List Char :=
  match url with
  | '/' :: '/' :: rest => takeNetloc rest
  | _ => ([], url)

/-- `if '#' in url: url, fragment = url.split('#', 1)`. -/
def fragSplit (url : List Char) : List Char × List Char :=
  match splitOnce '#' url with
  | some (a, b) => (a, b)
  | none => (url, [])

/-- `if '?' in url: url, query = url.split('?', 1)`. -/
def querySplit (url : List Char) : List Char × List Char :=
  match splitOnce '?' url with
  | some (a, b) => (a, b)
  | none => (url, [])

structure SplitResult where
  scheme : List Char
  netloc : List Char
  path : List Char
  query : List Char
  fragment : List Char
deriving Repr, DecidableEq

/-- `urllib.parse.urlsplit` (with `allow_fragments=True`). -/
def urlsplitL (url0 : List Char) : SplitResult :=
  let sp := schemeSplit (wsClean url0)
  let nl := netlocSplit sp.2
  let fr := fragSplit nl.2
  let qs := querySplit fr.1
  ⟨sp.1, nl.1, qs.1, qs.2, fr.2⟩

/-- `uses_params` from parse.py (schemes whose path may carry `;params`). -/
def uses_params : List (List Char) :=
  [[], "ftp".toList, "hdl".toList, "prospero".toList, "http".toList,
   "imap".toList, "https".toList, "shttp".toList, "rtsp".toList,
   "rtsps".toList, "rtspu".toList, "sip".toList, "sips".toList,
   "mms".toList, "sftp".toList, "tel".toList]

/-- `uses_netloc` from parse.py (used by `urlunsplit`). -/
def uses_netloc : List (List Char) :=
  [[], "ftp".toList, "http".toList, "gopher".toList, "nntp".toList,
   "telnet".toList, "imap".toList, "wais".toList, "file".toList,
   "mms".toList, "https".toList, "shttp".toList, "snews".toList,
   "prospero".toList, "rtsp".toList, "rtsps".toList, "rtspu".toList,
   "rsync".toList, "svn".toList, "svn+ssh".toList, "sftp".toList,
   "nfs".toList, "git".toList, "git+ssh".toList, "ws".toList,
   "wss".toList]

/-- `_splitparams`: find the first `;` of the last `/`-separated segment.
`urlparse` only calls this when `';' in url`; the final fallthrough
matches that calling convention. -/
def splitparams (l : List Char) : List Char × List Char :=
  match rsplitOnce '/' l with
  | some (a, b) =>
    (match splitOnce ';' b with
     | some (x, y) => (a ++ '/' :: x, y)
     | none => (l, []))
  | none =>
    (match splitOnce ';' l with
     | some (x, y) => (x, y)
     | none => (l, []))

structure ParseResult where
  scheme : List Char
  netloc : List Char
  path : List Char
  params : List Char
  query : List Char
  fragment : List Char
deriving Repr, DecidableEq

/-- `urllib.parse.urlparse` (with `allow_fragments=True`). -/
def urlparseL (url0 : List Char) : ParseResult :=
  let s := urlsplitL url0
  if uses_params.contains s.scheme && s.path.contains ';' then
    let pp := splitparams s.path
    ⟨s.scheme, s.netloc, pp.1, pp.2, s.query, s.fragment⟩
  else
    ⟨s.scheme, s.netloc, s.path, [], s.query, s.fragment⟩

/-- `urllib.parse.urlunsplit`. -/
def urlunsplitL (scheme netloc url query fragment : List Char) : List Char :=
  let url1 :=
    if !netloc.isEmpty ||
       (!scheme.isEmpty && uses_netloc.contains scheme &&
        !(hasPrefixCh ('/' :: '/' :: []) url))
    then '/' :: '/' :: (netloc ++
      (if !url.isEmpty && !(url.head? == some '/') then '/' :: url else url))
    else url
  let url2 := if !scheme.isEmpty then scheme ++ ':' :: url1 else url1
  let url3 := if !query.isEmpty then url2 ++ '?' :: query else url2
  if !fragment.isEmpty then url3 ++ '#' :: fragment else url3

/-- `urllib.parse.urlunparse`, which is also `ParseResult.geturl`. -/
def urlunparseL (r : ParseResult) : List Char :=
  let url := if !r.params.isEmpty then r.path ++ ';' :: r.params else r.path
  urlunsplitL r.scheme r.netloc url r.query r.fragment

/-! ## `src/crawler/utils/url_helpers.py` (same code is repeated at the top
of `src/direct_crawler.py`) -/

/-- Mismatched-bracket netloc, the only `ValueError` of `urlsplit` that a
bracket-free URL can come close to; `urlparse` raises on it and
`is_valid_url` catches the exception.  Well-formed `[...]` netlocs
additionally undergo a host check that is outside this model. -/
def netlocBracketMismatch (n : List Char) : Bool :=
  (n.contains '[' && !n.contains ']') || (n.contains ']' && !n.contains '[')

/-- `is_valid_url(url)`: `urlparse` inside try/except, then
`all([result.scheme, result.netloc])`. -/
def is_valid_url (url : String) : Bool :=
  let r := urlparseL url.toList
  if netlocBracketMismatch r.netloc then false
  else !r.scheme.isEmpty && !r.netloc.isEmpty

/-- `normalize_url(url)`: `urlparse(url)._replace(fragment='').geturl()`. -/
def normalize_url (url : String) : String :=
  let p := urlparseL url.toList
  ⟨urlunparseL ⟨p.scheme, p.netloc, p.path, p.params, p.query, []⟩⟩

/-! ### The `re.sub(r'utm_[a-zA-Z]+=[^&]*&?', '', query)` of `clean_url`

`re.sub` scans left to right; at each position it tries the pattern and,
on success, emits nothing and resumes after the match.  The pattern is
deterministic: `[a-zA-Z]+` is a maximal letter run (backtracking cannot
help, because `=` is not a letter), `[^&]*` is the maximal run of
non-`&` characters, and `&?` takes an `&` when one is present. -/

/-- Try the pattern at the head of the list; on success return the
remainder after the match. -/
def matchUtm : List Char → Option (List Char)
  | 'u' :: 't' :: 'm' :: '_' :: rest =>
    if (rest.takeWhile isAsciiAlphaCh).isEmpty then none
    else
      match rest.dropWhile isAsciiAlphaCh with
      | '=' :: r2 =>
        (match r2.dropWhile (fun c => !(c = '&')) with
         | '&' :: r4 => some r4
         | r3 => some r3)
      | _ => none
  | _ => none

theorem matchUtm_length_lt {l r : List Char} (h : matchUtm l = some r) :
    r.length < l.length := by
  unfold matchUtm at h
  split at h
  · rename_i rest
    split at h
    · exact absurd h (by simp)
    · split at h
      · rename_i r1 r2 heq
        have h2 : r2.length < rest.length := by
          have := (List.dropWhile_sublist (l := rest) isAsciiAlphaCh).length_le
          rw [heq] at this
          simp at this
          omega
        have h3 : (r2.dropWhile (fun c => !(c = '&'))).length ≤ r2.length :=
          (List.dropWhile_sublist _).length_le
        split at h <;> simp_all <;> omega
      · exact absurd h (by simp)
  · exact absurd h (by simp)

/-- The left-to-right scan of `re.sub` with empty replacement, with an
explicit step counter so that the definition computes by reduction; the
counter is always run at the list length, which the successful-match case
can never exhaust because a match consumes at least one character. -/
def reSubUtmAux : Nat → List Char → List Char
  | 0, l => l
  | _ + 1, [] => []
  | n + 1, c :: cs =>
    match matchUtm (c :: cs) with
    | some rest => reSubUtmAux n rest
    | none => c :: reSubUtmAux n cs

/-- The full left-to-right scan of `re.sub` with empty replacement. -/
def reSubUtm (l : List Char) : List Char := reSubUtmAux l.length l

theorem reSubUtmAux_nil (n : Nat) : reSubUtmAux n [] = [] := by
  cases n <;> rfl

theorem reSubUtmAux_congr :
    ∀ (n m : Nat) (l : List Char), l.length ≤ n → l.length ≤ m →
      reSubUtmAux n l = reSubUtmAux m l := by
  intro n
  induction n with
  | zero =>
    intro m l hn _
    have hl : l = [] := List.length_eq_zero.mp (Nat.le_zero.mp hn)
    subst hl
    rw [reSubUtmAux_nil, reSubUtmAux_nil]
  | succ n ih =>
    intro m l hn hm
    cases l with
    | nil => rw [reSubUtmAux_nil, reSubUtmAux_nil]
    | cons c cs =>
      cases m with
      | zero => exact absurd hm (by simp)
      | succ m =>
        simp only [reSubUtmAux]
        cases h : matchUtm (c :: cs) with
        | some rest =>
          have hlt := matchUtm_length_lt h
          simp only [List.length_cons] at hn hm hlt
          exact ih m rest (by omega) (by omega)
        | none =>
          simp only [List.length_cons] at hn hm
          rw [ih m cs (by omega) (by omega)]

theorem reSubUtm_nil : reSubUtm [] = [] := rfl

theorem reSubUtm_cons_match {c : Char} {cs rest : List Char}
    (h : matchUtm (c :: cs) = some rest) :
    reSubUtm (c :: cs) = reSubUtm rest := by
  have hlt := matchUtm_length_lt h
  simp only [reSubUtm, List.length_cons, reSubUtmAux, h]
  exact reSubUtmAux_congr _ _ _ (by simp at hlt ⊢; omega) (le_refl _)

theorem reSubUtm_cons_nomatch {c : Char} {cs : List Char}
    (h : matchUtm (c :: cs) = none) :
    reSubUtm (c :: cs) = c :: reSubUtm cs := by
  simp only [reSubUtm, List.length_cons, reSubUtmAux, h]

/-- `clean_url(url)`:
`urlparse(url)._replace(query=re.sub(r'utm_[a-zA-Z]+=[^&]*&?', '', parsed.query)).geturl()`. -/
def clean_url (url : String) : String :=
  let p := urlparseL url.toList
  ⟨urlunparseL ⟨p.scheme, p.netloc, p.path, p.params, reSubUtm p.query, p.fragment⟩⟩

/-- The canonicalization pipeline applied to every discovered link
(`direct_crawler.py` line 215, `ecommerce_spider.py` line 158):
`clean_url(normalize_url(u))`. -/
def canonicalize (u : String) : String := clean_url (normalize_url u)

/-! ### Model checks against the Python reference behaviour -/

example : reSubUtm "id=7&utm_source=x".toList = "id=7&".toList := by decide
example : reSubUtm "utm_source=x&id=7".toList = "id=7".toList := by decide
example : reSubUtm "ututm_p=1&m_q=2&r=3".toList = "utm_q=2&r=3".toList := by decide
example : reSubUtm "utm_q=2&r=3".toList = "r=3".toList := by decide
example : reSubUtm "a=1&utm_source=&b=2".toList = "a=1&b=2".toList := by decide
example : reSubUtm "utm_1=2".toList = "utm_1=2".toList := by decide

example : normalize_url "https://a.com/p#sec" = "https://a.com/p" := by decide
example : canonicalize "https://a.com/p?utm_source=x&id=7" = "https://a.com/p?id=7" := by
  decide
example : canonicalize "https://a.com/p?id=7&utm_source=x" = "https://a.com/p?id=7&" := by
  decide
example : canonicalize "https://a.com/p?utm_source=x" = "https://a.com/p" := by decide
example :
    urlparseL "https://a.com/x;param?q=1".toList
      = ⟨"https".toList, "a.com".toList, "/x".toList, "param".toList, "q=1".toList, []⟩ := by
  decide
example :
    urlunparseL (urlparseL "https://a.com/x;param?q=1".toList)
      = "https://a.com/x;param?q=1".toList := by decide
example : is_valid_url "ftp://example.com/file" = true := by decide
example : is_valid_url "javascript:alert(1)" = false := by decide
example : is_valid_url "mailto:x@y.com" = false := by decide
example : is_valid_url "//a.com/x" = false := by decide
example : is_valid_url "/rel" = false := by decide

/-! ## Model of the external `tldextract` library

`get_domain` and `is_same_domain` call `tldextract.extract`.  The library
is an external dependency; this model follows its documented contract:
the host is taken leniently from the URL, split into `.`-separated
labels, and matched against the public suffix list; the longest matching
suffix is returned, the label before it is the registered domain, and the
rest is the subdomain.  A host with no matching suffix yields the empty
suffix with the last label as domain (README example:
`tldextract.extract('google.notavalidsuffix')` gives
`ExtractResult(subdomain='google', domain='notavalidsuffix', suffix='')`),
and an IPv4-literal host is returned whole in the domain field (README
example: `tldextract.extract('http://127.0.0.1:8080/deployed/')` gives
`ExtractResult(subdomain='', domain='127.0.0.1', suffix='')`).
The public suffix list itself is external data the library ships and
periodically refreshes, so the model takes it as an explicit parameter
`psl`, exactly as the fetcher is a parameter of the crawl engine; the
general theorems quantify over it, and `pslSample`, a finite snapshot
containing every suffix the concrete examples mention, instantiates it
in concrete runs. -/

/-- Lenient host extraction (`tldextract.remote.lenient_netloc`): drop a
`scheme://` or leading `//`, cut at the first of `/`, `?`, `#`, keep the
part after the last `@`, cut at the first `:`, drop trailing dots,
lower-case. -/
def lenientHost (url : List Char) : List Char :=
  let afterScheme :=
    match url with
    | '/' :: '/' :: rest => rest
    | _ =>
      match splitOnce ':' url with
      | some (before, after) =>
        if !before.isEmpty && before.all scheme_chars &&
           hasPrefixCh ('/' :: '/' :: []) after
        then after.drop 2 else url
      | none => url
  let host := (takeNetloc afterScheme).fst
  let host :=
    match rsplitOnce '@' host with
    | some (_, b) => b
    | none => host
  let host :=
    match splitOnce ':' host with
    | some (a, _) => a
    | none => host
  toLowerL ((host.reverse.dropWhile (fun c => c = '.')).reverse)

/-- Split a host into its `.`-separated labels. -/
def splitDots : List Char → List (List Char)
  | [] => [[]]
  | c :: cs =>
    if c = '.' then [] :: splitDots cs
    else
      match splitDots cs with
      | a :: rest => (c :: a) :: rest
      | [] => [c :: cs]

/-- Rejoin labels with dots. -/
def joinDots : List (List Char) → List Char
  | [] => []
  | [a] => a
  | a :: rest => a ++ '.' :: joinDots rest

/-- Finite snapshot of the public suffix list used to instantiate the
`psl` parameter in concrete runs; it contains every suffix this
development mentions. -/
def pslSample : List (List Char) :=
  ["com".toList, "org".toList, "net".toList, "io".toList, "in".toList,
   "co".toList, "uk".toList, "co.uk".toList, "ac.uk".toList,
   "co.in".toList]

/-- One octet of the library's IPv4 regex
`[0-9] | [1-9][0-9] | 1[0-9]{2} | 2[0-4][0-9] | 25[0-5]`: a decimal
value 0–255 with no leading zero in the multi-digit forms. -/
def octetOk : List Char → Bool
  | [a] => isAsciiDigitCh a
  | [a, b] => 49 ≤ a.toNat && a.toNat ≤ 57 && isAsciiDigitCh b
  | [a, b, c] =>
    (a = '1' && isAsciiDigitCh b && isAsciiDigitCh c) ||
    (a = '2' && 48 ≤ b.toNat && b.toNat ≤ 52 && isAsciiDigitCh c) ||
    (a = '2' && b = '5' && 48 ≤ c.toNat && c.toNat ≤ 53)
  | _ => false

/-- An IPv4-looking host (`tldextract.remote.looks_like_ip`): the full
match of `(octet\.){3}octet`, i.e. exactly four dot-separated octets,
each in range 0–255. -/
def looksLikeIp (host : List Char) : Bool :=
  let ls := splitDots host
  ls.length = 4 && ls.all octetOk

/-- Length of the longest suffix of `ls` whose dotted join is on the
suffix list `psl` (`0` when none matches). -/
def longestPslSuffix (psl : List (List Char)) (ls : List (List Char)) : Nat :=
  (List.range (ls.length + 1)).foldl
    (fun best k =>
      if k ≠ 0 && psl.contains (joinDots (ls.drop (ls.length - k)))
      then k else best) 0

structure ExtractResult where
  subdomain : List Char
  domain : List Char
  suffix : List Char
deriving Repr, DecidableEq

/-- `tldextract.extract`, over the suffix list `psl`. -/
def tldextractL (psl : List (List Char)) (url : List Char) : ExtractResult :=
  let host := lenientHost url
  if host.isEmpty then ⟨[], [], []⟩
  else if looksLikeIp host then ⟨[], host, []⟩
  else
    let ls := splitDots host
    let k := longestPslSuffix psl ls
    let n := ls.length
    if k = 0 then
      ⟨joinDots (ls.take (n - 1)), joinDots (ls.drop (n - 1)), []⟩
    else
      ⟨joinDots (ls.take (n - k - 1)),
       joinDots ((ls.drop (n - k - 1)).take (if n - k = 0 then 0 else 1)),
       joinDots (ls.drop (n - k))⟩

/-- `get_domain(url)`: `f"{ext.domain}.{ext.suffix}"`. -/
def get_domain (psl : List (List Char)) (url : String) : String :=
  ⟨(tldextractL psl url.toList).domain ++
    '.' :: (tldextractL psl url.toList).suffix⟩

/-- `is_same_domain(url1, url2)`: equal `domain` and `suffix` fields. -/
def is_same_domain (psl : List (List Char)) (url1 url2 : String) : Bool :=
  (tldextractL psl url1.toList).domain = (tldextractL psl url2.toList).domain &&
  (tldextractL psl url1.toList).suffix = (tldextractL psl url2.toList).suffix

example : get_domain pslSample "https://shop.example.co.uk/x" = "example.co.uk" := by
  decide
example : get_domain pslSample "https://localhost/" = "localhost." := by decide
example : get_domain pslSample "http://127.0.0.1:8080/x" = "127.0.0.1." := by decide
example : get_domain pslSample "http://google.notavalidsuffix/" = "notavalidsuffix." := by
  decide
example : get_domain pslSample "http://999.0.0.1/" = "1." := by decide
example : is_same_domain pslSample "https://shop.example.com/x" "https://www.example.com/y"
    = true := by decide
example : is_same_domain pslSample "https://example.com" "https://example.co" = false := by
  decide

/-! ## Product-URL patterns (`url_helpers.is_product_url`,
`ecommerce_spider.common_product_patterns`)

Each regex is translated to its exact `re.search` semantics: all six
default patterns are plain text with at most one optional `[s]?`
character, so they are substring tests. -/

/-- `r'/product[s]?/'` -/
def patProductSeg (u : List Char) : Bool :=
  containsSub "/product/".toList u || containsSub "/products/".toList u

/-- `r'/p/'` -/
def patPSeg (u : List Char) : Bool := containsSub "/p/".toList u

/-- `r'/item[s]?/'` -/
def patItemSeg (u : List Char) : Bool :=
  containsSub "/item/".toList u || containsSub "/items/".toList u

/-- `r'/pd/'` -/
def patPdSeg (u : List Char) : Bool := containsSub "/pd/".toList u

/-- `r'/shop/product[s]?'` (no trailing slash: the optional `s` adds no
strings beyond those containing `/shop/product`). -/
def patShopProduct (u : List Char) : Bool :=
  containsSub "/shop/product".toList u

/-- `r'/good[s]?/'` -/
def patGoodSeg (u : List Char) : Bool :=
  containsSub "/good/".toList u || containsSub "/goods/".toList u

/-- `default_patterns` of `is_product_url` (the same six regexes appear as
`EcommerceSpider.common_product_patterns`). -/
def default_patterns : List (List Char → Bool) :=
  [patProductSeg, patPSeg, patItemSeg, patPdSeg, patShopProduct, patGoodSeg]

/-- `is_product_url(url, patterns=None)`: `patterns = patterns or
default_patterns` (so `None` and the empty list both fall back), then
first-match-wins over the list, `False` when none match.  A caller's
regex is represented by its `re.search` truth function. -/
def is_product_url (url : List Char) (patterns : Option (List (List Char → Bool))) : Bool :=
  let ps :=
    match patterns with
    | none => default_patterns
    | some [] => default_patterns
    | some ps => ps
  ps.any (fun p => p url)

/-! ## Exclusion patterns (`direct_crawler.exclude_patterns`, identical to
`EcommerceSpider.exclude_patterns`)

Eighteen literal-text patterns and five `$`-anchored extension patterns. -/

/-- The 23 `exclude_patterns` of `direct_crawler.py`, each translated to
its `re.search` semantics. -/
def exclude_patterns : List (List Char → Bool) :=
  [fun u => containsSub "/login".toList u,
   fun u => containsSub "/register".toList u,
   fun u => containsSub "/cart".toList u,
   fun u => containsSub "/checkout".toList u,
   fun u => containsSub "/wishlist".toList u,
   fun u => containsSub "/account".toList u,
   fun u => containsSub "/blog".toList u,
   fun u => containsSub "/article".toList u,
   fun u => containsSub "/search".toList u,
   fun u => containsSub "/contact".toList u,
   fun u => containsSub "/about".toList u,
   fun u => containsSub "/faq".toList u,
   fun u => containsSub "/help".toList u,
   fun u => containsSub "/support".toList u,
   fun u => containsSub "/privacy".toList u,
   fun u => containsSub "/terms".toList u,
   fun u => containsSub "/policy".toList u,
   fun u => containsSub "/sitemap".toList u,
   fun u => endsWithCh ".xml".toList u,
   fun u => endsWithCh ".pdf".toList u,
   fun u => endsWithCh ".jpg".toList u,
   fun u => endsWithCh ".png".toList u,
   fun u => endsWithCh ".gif".toList u]

/-- `SimpleEcommerceCrawler.is_excluded(url)`. -/
def is_excluded (url : String) : Bool :=
  exclude_patterns.any (fun p => p url.toList)

/-- `SimpleEcommerceCrawler.is_product(url)`: the domain-specific
patterns (`self.product_patterns`) are tried first; then the result of
`is_product_url(url)` — called with no pattern argument — is returned. -/
def is_product (product_patterns : List (String → Bool)) (url : String) : Bool :=
  product_patterns.any (fun p => p url) || is_product_url url.toList none

/-- `EcommerceSpider.is_product_url(url)`: first-match-wins over
`all_patterns = common_product_patterns + site_specific_patterns`. -/
def spider_is_product_url (site_specific_patterns : List (String → Bool))
    (url : String) : Bool :=
  (default_patterns.map (fun p => fun (u : String) => p u.toList)
     ++ site_specific_patterns).any (fun p => p url)

example : is_excluded "https://a.com/login" = true := by decide
example : is_excluded "https://a.com/products/1" = false := by decide
example : is_product [] "https://a.com/products/123" = true := by decide
example : is_product [] "https://a.com/x" = false := by decide

/-! ## The crawl engine (`SimpleEcommerceCrawler.crawl`,
`src/direct_crawler.py` lines 224–287)

The external collaborators are passed in as functions, exactly as the
spec declares them external capabilities:
* `fetch_page : String → Option String` — `requests.get` wrapped by
  `fetch_page` (returns the page text, or `None` on any failure);
* `extract_links : String → String → List String` — `extract_links(html,
  base_url)`: BeautifulSoup plus the urljoin/clean/normalize/valid/
  same-domain filter, returning the candidate links in document order.

`visited_urls` and `product_urls` are Python `set`s.  `visited_urls` is
used only through membership, so it is kept as the list of insertions.
`product_urls` is also serialised (`json.dump(list(self.product_urls))`),
and a Python set does not retain insertion order, so it is kept in a
canonical order-forgetting representation (sorted, duplicate-free):
states reachable through different insertion orders of the same elements
are equal, exactly as the corresponding Python sets are.

Fields marked "ghost" record the event history (pops, processing order,
fetch calls, first-discovery order of products) for specification
purposes; they influence nothing. -/

structure CrawlConfig where
  start_urls : List String
  /-- `self.product_patterns`; each domain regex is represented by its
  `re.search` truth function. -/
  product_patterns : List (String → Bool)
  max_products : Nat
  max_depth : Nat

structure CrawlState where
  visited_urls : List String
  product_urls : List String
  queue : List (String × Nat)
  /-- ghost: urls passed to `fetch_page`, in call order. -/
  fetched : List String
  /-- ghost: every item removed from the queue by `popleft`, in order. -/
  poppedTrace : List (String × Nat)
  /-- ghost: urls that passed the visited check and were processed. -/
  processedTrace : List String
  /-- ghost: product urls in the order they were first recorded. -/
  discoveryTrace : List String
deriving Repr, DecidableEq

/-- Lexicographic comparison on the character lists (any total order
serves; this one evaluates by reduction). -/
def strLtB : List Char → List Char → Bool
  | [], [] => false
  | [], _ :: _ => true
  | _ :: _, [] => false
  | a :: as, b :: bs => if a = b then strLtB as bs else decide (a.toNat < b.toNat)

/-- Sorted duplicate-free insertion: the canonical representation of
Python `set.add` on strings (the set abstracts the insertion order). -/
def insertSet (x : String) : List String → List String
  | [] => [x]
  | y :: ys =>
    if x = y then y :: ys
    else if strLtB x.toList y.toList then x :: y :: ys
    else y :: insertSet x ys

/-- One iteration of the `while` body (entered when the loop guard
holds).  The returned flag records whether the iteration executed
`break`. -/
def crawlStep (cfg : CrawlConfig) (fetch_page : String → Option String)
    (extract_links : String → String → List String)
    (st : CrawlState) : CrawlState × Bool :=
  match st.queue with
  | [] => (st, true)
  | (url, depth) :: rest =>
    -- url, depth = self.queue.popleft()
    let st1 := { st with queue := rest, poppedTrace := st.poppedTrace ++ [(url, depth)] }
    -- if url in self.visited_urls: continue
    if url ∈ st1.visited_urls then (st1, false)
    else
      -- self.visited_urls.add(url)
      let st2 := { st1 with visited_urls := st1.visited_urls ++ [url],
                            processedTrace := st1.processedTrace ++ [url] }
      -- if self.is_product(url): self.product_urls.add(url)
      let st3 :=
        if is_product cfg.product_patterns url then
          { st2 with product_urls := insertSet url st2.product_urls,
                     discoveryTrace :=
                       if url ∈ st2.product_urls then st2.discoveryTrace
                       else st2.discoveryTrace ++ [url] }
        else st2
      -- if len(self.product_urls) >= self.max_products: break
      if is_product cfg.product_patterns url ∧ cfg.max_products ≤ st3.product_urls.length
      then (st3, true)
      -- if depth >= self.max_depth: continue
      else if cfg.max_depth ≤ depth then (st3, false)
      else
        -- html = self.fetch_page(url); if not html: continue
        let st4 := { st3 with fetched := st3.fetched ++ [url] }
        match fetch_page url with
        | none => (st4, false)
        | some html =>
          if html = "" then (st4, false)
          else
            -- links = self.extract_links(html, url); per-link filters
            let links := extract_links html url
            let newItems :=
              (links.filter (fun l => !is_excluded l && !(decide (l ∈ st4.visited_urls)))).map
                (fun l => (l, depth + 1))
            ({ st4 with queue := st4.queue ++ newItems }, false)

/-- The `while self.queue and len(self.product_urls) < self.max_products`
loop, with a step budget (the Python loop need not terminate; every
theorem about a concrete crawl supplies a budget large enough for the
loop to exit on its own). -/
def crawlLoop (cfg : CrawlConfig) (fetch_page : String → Option String)
    (extract_links : String → String → List String) :
    Nat → CrawlState → CrawlState
  | 0, st => st
  | fuel + 1, st =>
    if st.queue ≠ [] ∧ st.product_urls.length < cfg.max_products then
      let p := crawlStep cfg fetch_page extract_links st
      if p.2 then p.1 else crawlLoop cfg fetch_page extract_links fuel p.1
    else st

/-- `crawl` seeding: `for url in self.start_urls:
self.queue.append((url, 0))` — no validation, exclusion or visited
marking. -/
def initState (cfg : CrawlConfig) : CrawlState :=
  { visited_urls := [], product_urls := [],
    queue := cfg.start_urls.map (fun u => (u, 0)),
    fetched := [], poppedTrace := [], processedTrace := [],
    discoveryTrace := [] }

/-- `SimpleEcommerceCrawler.crawl()`. -/
def crawl (cfg : CrawlConfig) (fetch_page : String → Option String)
    (extract_links : String → String → List String) (fuel : Nat) : CrawlState :=
  crawlLoop cfg fetch_page extract_links fuel (initState cfg)

/-- `_save_results`: `json.dump(list(self.product_urls), f)` — a function
of the product set alone (its iteration order is whatever the Python set
yields). -/
def save_results (st : CrawlState) : List String := st.product_urls

/-! ## The Scrapy pipelines (`src/crawler/pipelines.py`) and the spider's
item construction (`src/crawler/spiders/ecommerce_spider.py`) -/

structure Item where
  url : String
  domain : String
  found_on : String
deriving Repr, DecidableEq

/-- The item yielded by `EcommerceSpider.parse_links` for one accepted
product link on the page at `response_url`:
`ProductURL(url=link, domain=get_domain(response.url),
found_on=response.url)` (the timestamp field is not modelled). -/
def spider_item (psl : List (List Char)) (response_url link : String) : Item :=
  { url := link, domain := get_domain psl response_url,
    found_on := response_url }

/-- `DuplicatesPipeline`: drop an item whose url was already seen
(`urls_seen` is a set used only through membership). -/
def duplicates_pipeline (seen : List String) : List Item → List Item
  | [] => []
  | it :: its =>
    if it.url ∈ seen then duplicates_pipeline seen its
    else it :: duplicates_pipeline (seen ++ [it.url]) its

/-- `OutputPipeline.process_item`: `items_per_domain` is a Python dict
(insertion-ordered in Python 3.7+), so it is an association list; a new
domain is appended, an existing one has the item appended to its list. -/
def output_add : List (String × List Item) → Item → List (String × List Item)
  | [], it => [(it.domain, [it])]
  | (k, v) :: t, it =>
    if k = it.domain then (k, v ++ [it]) :: t
    else (k, v) :: output_add t it

/-- All of `OutputPipeline`'s `process_item` calls over an item stream. -/
def output_pipeline (items : List Item) : List (String × List Item) :=
  items.foldl output_add []

/-- Dict lookup (first matching key). -/
def lookupItems : List (String × List Item) → String → List Item
  | [], _ => []
  | (k, v) :: t, d => if k = d then v else lookupItems t d

/-- The full item flow: `DuplicatesPipeline` (priority 300) feeds
`OutputPipeline` (priority 500). -/
def run_pipelines (items : List Item) : List (String × List Item) :=
  output_pipeline (duplicates_pipeline [] items)

/-- `close_spider`: the per-domain url list written for domain `d`
(`[item['url'] for item in items]`). -/
def domain_urls (table : List (String × List Item)) (d : String) : List String :=
  (lookupItems table d).map (fun it => it.url)

/-! ## Generic crawl-loop reasoning -/

theorem insertSet_length_le (x : String) (l : List String) :
    (insertSet x l).length ≤ l.length + 1 := by
  induction l with
  | nil => simp [insertSet]
  | cons y ys ih =>
    unfold insertSet
    split_ifs <;> first | (simp; omega) | simp

theorem mem_insertSet {x y : String} {l : List String} :
    y ∈ insertSet x l → y = x ∨ y ∈ l := by
  induction l with
  | nil => simp [insertSet]
  | cons z zs ih =>
    unfold insertSet
    split_ifs with h1 h2
    · intro h; right; exact h
    · intro h
      rcases List.mem_cons.mp h with h | h
      · left; exact h
      · right; exact h
    · intro h
      rcases List.mem_cons.mp h with h | h
      · right; exact List.mem_cons.mpr (Or.inl h)
      · rcases ih h with h | h
        · left; exact h
        · right; exact List.mem_cons.mpr (Or.inr h)

/-- An invariant preserved by every guarded loop iteration is preserved
by the whole loop. -/
theorem crawlLoop_inv (cfg : CrawlConfig) (fp : String → Option String)
    (el : String → String → List String) (P : CrawlState → Prop)
    (hstep : ∀ st, P st → st.queue ≠ [] →
      st.product_urls.length < cfg.max_products →
      P (crawlStep cfg fp el st).1) :
    ∀ (fuel : Nat) (st : CrawlState), P st → P (crawlLoop cfg fp el fuel st) := by
  intro fuel
  induction fuel with
  | zero => intro st h; exact h
  | succ n ih =>
    intro st h
    unfold crawlLoop
    split
    · rename_i hguard
      by_cases hbrk : (crawlStep cfg fp el st).2
      · simp only [hbrk, if_true]
        exact hstep st h hguard.1 hguard.2
      · simp only [hbrk, if_false, Bool.false_eq_true]
        exact ih _ (hstep st h hguard.1 hguard.2)
    · exact h

/-- Processing discipline of one step: the processed trace stays
duplicate-free and inside the visited set. -/
theorem crawlStep_processed_inv (cfg : CrawlConfig) (fp : String → Option String)
    (el : String → String → List String) (st : CrawlState)
    (h1 : st.processedTrace.Nodup)
    (h2 : ∀ u ∈ st.processedTrace, u ∈ st.visited_urls) :
    (crawlStep cfg fp el st).1.processedTrace.Nodup ∧
      ∀ u ∈ (crawlStep cfg fp el st).1.processedTrace,
        u ∈ (crawlStep cfg fp el st).1.visited_urls := by
  unfold crawlStep
  match hq : st.queue with
  | [] => exact ⟨h1, h2⟩
  | (url, depth) :: rest =>
    dsimp only
    by_cases hv : url ∈ st.visited_urls
    · simp only [hv, if_true]
      exact ⟨h1, h2⟩
    · simp only [hv, if_false]
      have hnp : url ∉ st.processedTrace := fun hmem => hv (h2 url hmem)
      have hnodup : (st.processedTrace ++ [url]).Nodup := by
        simp [List.nodup_append, h1, hnp]
      have hmem : ∀ u ∈ st.processedTrace ++ [url], u ∈ st.visited_urls ++ [url] := by
        intro u hu
        rcases List.mem_append.mp hu with hu | hu
        · exact List.mem_append.mpr (Or.inl (h2 u hu))
        · exact List.mem_append.mpr (Or.inr hu)
      split_ifs <;>
        first
          | exact ⟨hnodup, hmem⟩
          | (cases hfp : fp url with
             | none => exact ⟨hnodup, hmem⟩
             | some html =>
                simp only [hfp]
                split_ifs <;> exact ⟨hnodup, hmem⟩)

/-! ## Claim C1 — frontier deduplication -/

/-- C1, as stated, is false on the code: `crawl` neither marks a URL
visited at enqueue time nor limits it to a single pop.  Seeding the same
canonical URL twice appends two queue items while the visited set is
still empty, and both items are subsequently popped (the second pop is
skipped because the URL became visited at its first *dequeue*): the same
canonical URL is pushed twice yet two FrontierItems are popped. -/
theorem C1_counterexample :
    (initState ⟨["https://www.a.com/", "https://www.a.com/"], [], 10, 5⟩).queue
        = [("https://www.a.com/", 0), ("https://www.a.com/", 0)] ∧
      (initState ⟨["https://www.a.com/", "https://www.a.com/"], [], 10, 5⟩).visited_urls
        = [] ∧
      (crawl ⟨["https://www.a.com/", "https://www.a.com/"], [], 10, 5⟩
          (fun _ => none) (fun _ _ => []) 5).poppedTrace
        = [("https://www.a.com/", 0), ("https://www.a.com/", 0)] ∧
      ¬ ((crawl ⟨["https://www.a.com/", "https://www.a.com/"], [], 10, 5⟩
          (fun _ => none) (fun _ _ => []) 5).poppedTrace.length = 1) := by
  refine ⟨rfl, rfl, ?_, ?_⟩ <;> decide

/-- C1 amended: the code checks the visited set when enqueueing a
discovered link but marks a URL visited only when it is dequeued, so the
same canonical URL can be enqueued and popped more than once; it is
nevertheless *processed* (marked visited, classified, expanded) at most
once per domain crawl — the processed trace of every crawl is
duplicate-free. -/
theorem C1_amended (cfg : CrawlConfig) (fp : String → Option String)
    (el : String → String → List String) (fuel : Nat) :
    (crawl cfg fp el fuel).processedTrace.Nodup := by
  have h := crawlLoop_inv cfg fp el
    (fun st => st.processedTrace.Nodup ∧
      ∀ u ∈ st.processedTrace, u ∈ st.visited_urls)
    (fun st hst _ _ => crawlStep_processed_inv cfg fp el st hst.1 hst.2)
    fuel (initState cfg) (by simp [initState])
  exact h.1

/-! ## Claim C2 — the per-domain product limit -/

/-- One step changes the product set at most by inserting the popped
URL. -/
theorem crawlStep_products_shape (cfg : CrawlConfig) (fp : String → Option String)
    (el : String → String → List String) (st : CrawlState) :
    (crawlStep cfg fp el st).1.product_urls = st.product_urls ∨
      ∃ u, (crawlStep cfg fp el st).1.product_urls = insertSet u st.product_urls := by
  unfold crawlStep
  match hq : st.queue with
  | [] => exact Or.inl rfl
  | (url, depth) :: rest =>
    dsimp only
    split_ifs <;>
      first
        | exact Or.inl rfl
        | exact Or.inr ⟨url, rfl⟩
        | (cases hfp : fp url with
           | none => first | exact Or.inl rfl | exact Or.inr ⟨url, rfl⟩
           | some html =>
             simp only [hfp]
             split_ifs <;> first | exact Or.inl rfl | exact Or.inr ⟨url, rfl⟩)

/-- C2: (i) in every crawl, at every point (after any number of loop
iterations, i.e. for every step budget), the number of recorded product
URLs is at most `max_products` — the loop guard re-checks the count
before each iteration and the body breaks as soon as the count reaches
the limit after an insertion; (ii) in a concrete crawl whose one fetched
page links to three product URLs under a limit of 2, the engine stops
with exactly 2 recorded products while the frontier still holds the
third link. -/
theorem C2_product_limit :
    (∀ (cfg : CrawlConfig) (fp : String → Option String)
       (el : String → String → List String) (fuel : Nat),
       (crawl cfg fp el fuel).product_urls.length ≤ cfg.max_products) ∧
      (crawl ⟨["https://www.a.com/"], [], 2, 5⟩
          (fun u => if u = "https://www.a.com/" then some "page" else none)
          (fun _ _ => ["https://www.a.com/products/1", "https://www.a.com/products/2",
                       "https://www.a.com/products/3"]) 10).product_urls.length = 2 ∧
      (crawl ⟨["https://www.a.com/"], [], 2, 5⟩
          (fun u => if u = "https://www.a.com/" then some "page" else none)
          (fun _ _ => ["https://www.a.com/products/1", "https://www.a.com/products/2",
                       "https://www.a.com/products/3"]) 10).queue ≠ [] := by
  refine ⟨?_, by decide, by decide⟩
  intro cfg fp el fuel
  exact crawlLoop_inv cfg fp el
    (fun st => st.product_urls.length ≤ cfg.max_products)
    (fun st _ _ hlt => by
      rcases crawlStep_products_shape cfg fp el st with h | ⟨u, h⟩
      · rw [h]; omega
      · rw [h]
        have := insertSet_length_le u st.product_urls
        omega)
    fuel (initState cfg) (by simp [initState])

/-! ## Claim C3 — classification happens at the depth cutoff, fetching
does not -/

/-- C3: when the loop pops an item that has not been visited and whose
depth has reached `max_depth`, the iteration still processes and
classifies the URL — recording it as a product exactly when the
classifier accepts it (the product count being under the limit is the
loop guard, stated here as a hypothesis) — but `fetch_page` is not
called and no children are enqueued. -/
theorem C3_depth_cutoff (cfg : CrawlConfig) (fp : String → Option String)
    (el : String → String → List String) (st : CrawlState)
    (url : String) (depth : Nat) (rest : List (String × Nat))
    (hq : st.queue = (url, depth) :: rest)
    (hv : url ∉ st.visited_urls)
    (hd : cfg.max_depth ≤ depth) :
    (crawlStep cfg fp el st).1.fetched = st.fetched ∧
      (crawlStep cfg fp el st).1.queue = rest ∧
      (crawlStep cfg fp el st).1.processedTrace = st.processedTrace ++ [url] ∧
      (crawlStep cfg fp el st).1.product_urls =
        (if is_product cfg.product_patterns url then insertSet url st.product_urls
         else st.product_urls) := by
  unfold crawlStep
  rw [hq]
  dsimp only
  simp only [hv, if_false]
  split_ifs with h1 h2 h3 <;> simp_all

/-- Witness for C3 at a concrete state: one frontier item at depth 0
with `max_depth = 0`; the URL is classified (and recorded — it matches
the built-in `/products/` pattern) while nothing is fetched and nothing
is enqueued. -/
theorem C3_witness :
    (crawlStep ⟨[], [], 10, 0⟩ (fun _ => some "page") (fun _ _ => ["x"])
        ⟨[], [], [("https://www.a.com/products/1", 0)], [], [], [], []⟩).1.fetched = [] ∧
      (crawlStep ⟨[], [], 10, 0⟩ (fun _ => some "page") (fun _ _ => ["x"])
        ⟨[], [], [("https://www.a.com/products/1", 0)], [], [], [], []⟩).1.queue = [] ∧
      (crawlStep ⟨[], [], 10, 0⟩ (fun _ => some "page") (fun _ _ => ["x"])
        ⟨[], [], [("https://www.a.com/products/1", 0)], [], [], [], []⟩).1.processedTrace
        = ["https://www.a.com/products/1"] ∧
      (crawlStep ⟨[], [], 10, 0⟩ (fun _ => some "page") (fun _ _ => ["x"])
        ⟨[], [], [("https://www.a.com/products/1", 0)], [], [], [], []⟩).1.product_urls
        = (if is_product [] "https://www.a.com/products/1" then
             insertSet "https://www.a.com/products/1" [] else []) :=
  C3_depth_cutoff ⟨[], [], 10, 0⟩ (fun _ => some "page") (fun _ _ => ["x"])
    ⟨[], [], [("https://www.a.com/products/1", 0)], [], [], [], []⟩
    "https://www.a.com/products/1" 0 [] rfl (by decide) (by decide)

/-! ## Claim C4 — the exclusion gate -/

/-- C4, as stated, is false on the code: the exclusion gate is applied
only to discovered links before they are enqueued; a *seed* URL is
enqueued without it and is classified when popped.  The seed
`https://www.a.com/blog/products/1` matches the exclude pattern `/blog`
and the built-in include pattern `/product[s]?/`, and the crawl records
it as a product. -/
theorem C4_counterexample :
    is_excluded "https://www.a.com/blog/products/1" = true ∧
      (crawl ⟨["https://www.a.com/blog/products/1"], [], 10, 5⟩
          (fun _ => none) (fun _ _ => []) 3).product_urls
        = ["https://www.a.com/blog/products/1"] := by
  constructor <;> decide

/-- One step keeps "every queued and every recorded URL is
non-excluded". -/
theorem crawlStep_excluded_inv (cfg : CrawlConfig) (fp : String → Option String)
    (el : String → String → List String) (st : CrawlState)
    (h1 : ∀ it ∈ st.queue, is_excluded it.1 = false)
    (h2 : ∀ u ∈ st.product_urls, is_excluded u = false) :
    (∀ it ∈ (crawlStep cfg fp el st).1.queue, is_excluded it.1 = false) ∧
      ∀ u ∈ (crawlStep cfg fp el st).1.product_urls, is_excluded u = false := by
  unfold crawlStep
  match hq : st.queue with
  | [] => exact ⟨fun it hit => h1 it (hq ▸ hit), h2⟩
  | (url, depth) :: rest =>
    have hurl : is_excluded url = false := h1 (url, depth) (by rw [hq]; simp)
    have hrest : ∀ it ∈ rest, is_excluded it.1 = false :=
      fun it hit => h1 it (by rw [hq]; exact List.mem_cons.mpr (Or.inr hit))
    have hprod : ∀ u ∈ insertSet url st.product_urls, is_excluded u = false := by
      intro u hu
      rcases mem_insertSet hu with h | h
      · rw [h]; exact hurl
      · exact h2 u h
    dsimp only
    split_ifs <;>
      first
        | exact ⟨hrest, h2⟩
        | exact ⟨hrest, hprod⟩
        | (cases hfp : fp url with
           | none => first | exact ⟨hrest, h2⟩ | exact ⟨hrest, hprod⟩
           | some html =>
             simp only [hfp]
             split_ifs <;>
               first
                 | exact ⟨hrest, h2⟩
                 | exact ⟨hrest, hprod⟩
                 | refine ⟨?_, ?_⟩ <;>
                     first
                       | exact h2
                       | exact hprod
                       | (intro it hit
                          rcases List.mem_append.mp hit with hit | hit
                          · exact hrest it hit
                          · rcases List.mem_map.mp hit with ⟨l, hl, rfl⟩
                            have := (List.mem_filter.mp hl).2
                            simp only [Bool.and_eq_true, Bool.not_eq_true'] at this
                            exact this.1))

/-- C4 amended: the exclusion gate is applied to every *discovered* link
before it is enqueued (hence before it can ever be classified or
re-enqueued), but seed URLs bypass it; consequently, whenever the seed
URLs are themselves non-excluded, every URL ever enqueued and every URL
ever recorded as a product is non-excluded. -/
theorem C4_amended (cfg : CrawlConfig) (fp : String → Option String)
    (el : String → String → List String) (fuel : Nat)
    (hseed : ∀ s ∈ cfg.start_urls, is_excluded s = false) :
    (∀ it ∈ (crawl cfg fp el fuel).queue, is_excluded it.1 = false) ∧
      ∀ u ∈ (crawl cfg fp el fuel).product_urls, is_excluded u = false := by
  exact crawlLoop_inv cfg fp el
    (fun st => (∀ it ∈ st.queue, is_excluded it.1 = false) ∧
      ∀ u ∈ st.product_urls, is_excluded u = false)
    (fun st hst _ _ => crawlStep_excluded_inv cfg fp el st hst.1 hst.2)
    fuel (initState cfg)
    (by
      refine ⟨?_, by simp [initState]⟩
      intro it hit
      simp only [initState] at hit
      rcases List.mem_map.mp hit with ⟨s, hs, rfl⟩
      exact hseed s hs)

/-- Witness for C4 at a concrete crawl whose page links to one excluded
and one non-excluded product URL: nothing excluded is queued or
recorded. -/
theorem C4_witness :
    (∀ it ∈ (crawl ⟨["https://www.a.com/"], [], 10, 5⟩
        (fun u => if u = "https://www.a.com/" then some "page" else none)
        (fun _ _ => ["https://www.a.com/products/1", "https://www.a.com/cart/products/2"])
        10).queue, is_excluded it.1 = false) ∧
      ∀ u ∈ (crawl ⟨["https://www.a.com/"], [], 10, 5⟩
        (fun u => if u = "https://www.a.com/" then some "page" else none)
        (fun _ _ => ["https://www.a.com/products/1", "https://www.a.com/cart/products/2"])
        10).product_urls, is_excluded u = false :=
  C4_amended ⟨["https://www.a.com/"], [], 10, 5⟩
    (fun u => if u = "https://www.a.com/" then some "page" else none)
    (fun _ _ => ["https://www.a.com/products/1", "https://www.a.com/cart/products/2"])
    10 (by decide)

/-! ## Claim C7 — classifier pattern precedence -/

/-- Definition following the spec's words (§4.3), for comparison with
the code: evaluate the domain-specific include patterns first, falling
back to the generic built-ins *only if the domain supplies none*. -/
def classify_spec (includePatterns : List (String → Bool)) (url : String) : Bool :=
  match includePatterns with
  | [] => default_patterns.any (fun p => p url.toList)
  | ps => ps.any (fun p => p url)

/-- C7, as stated, is false on the code:
`SimpleEcommerceCrawler.is_product` always falls through to the generic
built-in patterns, even when the domain supplies patterns of its own.
With the domain pattern `/custom/` (which does not match), the URL
`https://a.com/products/1` is still accepted through the generic
`/product[s]?/` pattern, whereas the claim's rule rejects it. -/
theorem C7_counterexample :
    is_product [fun u => containsSub "/custom/".toList u.toList]
        "https://a.com/products/1" = true ∧
      classify_spec [fun u => containsSub "/custom/".toList u.toList]
        "https://a.com/products/1" = false := by
  constructor <;> rfl

/-- C7 amended: the crawler's classifier is the disjunction of the
domain-specific patterns and the generic built-ins, each first-match-
wins, regardless of whether domain patterns were supplied.  The helper
`is_product_url` falls back to the built-ins exactly when it is given no
patterns (`None` or an empty list), and the spider ORs the common
patterns with the site-specific ones. -/
theorem C7_amended (ps : List (String → Bool)) (qs : List (List Char → Bool))
    (u : String) :
    is_product ps u
        = (ps.any (fun p => p u) || default_patterns.any (fun p => p u.toList)) ∧
      is_product_url u.toList (some qs)
        = (if qs.isEmpty then default_patterns.any (fun p => p u.toList)
           else qs.any (fun p => p u.toList)) ∧
      spider_is_product_url ps u
        = (default_patterns.any (fun p => p u.toList) || ps.any (fun p => p u)) := by
  refine ⟨?_, ?_, ?_⟩
  · rfl
  · cases qs <;> rfl
  · simp [spider_is_product_url, List.any_append, List.any_map]
    rfl

/-! ## Claim C8 — per-domain result order -/

/-- C8, as stated, is false on the direct crawler: `_save_results` dumps
`list(self.product_urls)`, a function of the product *set* alone.  Two
crawls over the same page whose links appear in opposite orders record
products in different discovery orders yet end in identical states, so
no output computed from the final state — in particular `save_results`
— can equal the discovery order in both. -/
theorem C8_counterexample :
    (crawl ⟨["https://www.a.com/"], [], 10, 5⟩
        (fun u => if u = "https://www.a.com/" then some "page" else none)
        (fun _ _ => ["https://www.a.com/products/b", "https://www.a.com/products/a"])
        10).product_urls
      = (crawl ⟨["https://www.a.com/"], [], 10, 5⟩
        (fun u => if u = "https://www.a.com/" then some "page" else none)
        (fun _ _ => ["https://www.a.com/products/a", "https://www.a.com/products/b"])
        10).product_urls ∧
    save_results (crawl ⟨["https://www.a.com/"], [], 10, 5⟩
        (fun u => if u = "https://www.a.com/" then some "page" else none)
        (fun _ _ => ["https://www.a.com/products/b", "https://www.a.com/products/a"]) 10)
      = save_results (crawl ⟨["https://www.a.com/"], [], 10, 5⟩
        (fun u => if u = "https://www.a.com/" then some "page" else none)
        (fun _ _ => ["https://www.a.com/products/a", "https://www.a.com/products/b"]) 10) ∧
    (crawl ⟨["https://www.a.com/"], [], 10, 5⟩
        (fun u => if u = "https://www.a.com/" then some "page" else none)
        (fun _ _ => ["https://www.a.com/products/b", "https://www.a.com/products/a"])
        10).discoveryTrace
      = ["https://www.a.com/products/b", "https://www.a.com/products/a"] ∧
    (crawl ⟨["https://www.a.com/"], [], 10, 5⟩
        (fun u => if u = "https://www.a.com/" then some "page" else none)
        (fun _ _ => ["https://www.a.com/products/a", "https://www.a.com/products/b"])
        10).discoveryTrace
      = ["https://www.a.com/products/a", "https://www.a.com/products/b"] ∧
    ("https://www.a.com/products/b" : String) ≠ "https://www.a.com/products/a" := by
  refine ⟨?_, ?_, ?_, ?_, ?_⟩ <;> decide

/-- The spec's discovery order (§3/§4.7): for each *distinct* product
URL its first carrying item, in stream order, restricted to the items
recorded for domain `d` (an URL already seen — under any domain — is
never recorded again). -/
def discovery_order (seen : List String) (d : String) : List Item → List String
  | [] => []
  | it :: its =>
    if it.url ∈ seen then discovery_order seen d its
    else if it.domain = d then it.url :: discovery_order (seen ++ [it.url]) d its
    else discovery_order (seen ++ [it.url]) d its

theorem lookupItems_output_add (t : List (String × List Item)) (it : Item)
    (d : String) :
    lookupItems (output_add t it) d
      = if d = it.domain then lookupItems t d ++ [it] else lookupItems t d := by
  induction t with
  | nil =>
    simp only [output_add, lookupItems]
    by_cases h : d = it.domain
    · simp [h]
    · simp [h, Ne.symm h]
  | cons kv t ih =>
    obtain ⟨k, v⟩ := kv
    simp only [output_add]
    by_cases hk : k = it.domain
    · simp only [hk, if_true, lookupItems]
      by_cases hd : d = it.domain
      · simp [hd]
      · simp [hd, Ne.symm hd]
    · simp only [hk, if_false, lookupItems]
      by_cases hkd : k = d
      · have hne : ¬ d = it.domain := fun h => hk (hkd.trans h)
        simp [hkd, hne]
      · simp [hkd, ih]

theorem lookupItems_output_fold (items : List Item) :
    ∀ (t : List (String × List Item)) (d : String),
      lookupItems (items.foldl output_add t) d
        = lookupItems t d ++ (items.filter (fun it => it.domain = d)) := by
  induction items with
  | nil => intro t d; simp
  | cons it its ih =>
    intro t d
    simp only [List.foldl_cons, List.filter_cons]
    rw [ih]
    by_cases h : it.domain = d
    · simp [lookupItems_output_add, h, List.append_assoc]
    · have : ¬ d = it.domain := fun hh => h hh.symm
      simp [lookupItems_output_add, h, this]

theorem duplicates_pipeline_discovery (items : List Item) :
    ∀ (seen : List String) (d : String),
      ((duplicates_pipeline seen items).filter
          (fun it => it.domain = d)).map (fun it => it.url)
        = discovery_order seen d items := by
  induction items with
  | nil => intro seen d; rfl
  | cons it its ih =>
    intro seen d
    simp only [duplicates_pipeline, discovery_order]
    by_cases hs : it.url ∈ seen
    · simp only [hs, if_true]
      exact ih seen d
    · simp only [hs, if_false, List.filter_cons]
      by_cases hd : it.domain = d
      · simp [hd, ih]
      · simp [hd, ih]

theorem duplicates_pipeline_urls_nodup (items : List Item) :
    ∀ seen : List String,
      ((duplicates_pipeline seen items).map (fun it => it.url)).Nodup ∧
        ∀ u ∈ (duplicates_pipeline seen items).map (fun it => it.url), u ∉ seen := by
  induction items with
  | nil => intro seen; simp [duplicates_pipeline]
  | cons it its ih =>
    intro seen
    simp only [duplicates_pipeline]
    by_cases hs : it.url ∈ seen
    · simp only [hs, if_true]
      exact ih seen
    · simp only [hs, if_false, List.map_cons]
      obtain ⟨ihn, ihm⟩ := ih (seen ++ [it.url])
      constructor
      · refine List.nodup_cons.mpr ⟨?_, ihn⟩
        intro hmem
        exact ihm it.url hmem (by simp)
      · intro u hu
        rcases List.mem_cons.mp hu with rfl | hu
        · exact hs
        · intro hseen
          exact ihm u hu (List.mem_append.mpr (Or.inl hseen))

/-- C8 amended: the Scrapy output path does expose, per domain, the
distinct product URLs in discovery order: `DuplicatesPipeline` followed
by `OutputPipeline` writes for each domain exactly the first occurrence
of every product URL, in arrival order, with no duplicates.  (The direct
crawler's `_save_results`, by contrast, saves from an unordered set and
cannot reproduce discovery order — see the counterexample.) -/
theorem C8_amended (items : List Item) (d : String) :
    domain_urls (run_pipelines items) d = discovery_order [] d items ∧
      (domain_urls (run_pipelines items) d).Nodup := by
  have hmain : domain_urls (run_pipelines items) d = discovery_order [] d items := by
    unfold domain_urls run_pipelines output_pipeline
    rw [lookupItems_output_fold]
    simp only [lookupItems, List.nil_append]
    exact duplicates_pipeline_discovery items [] d
  refine ⟨hmain, ?_⟩
  rw [hmain, ← duplicates_pipeline_discovery items [] d]
  have hnodup := (duplicates_pipeline_urls_nodup items []).1
  exact hnodup.sublist ((List.filter_sublist _).map _)

/-! ## Claim C10 — registrable-domain extraction without a recognised
suffix -/

theorem joinDots_single (h : List Char) : joinDots [h] = h := rfl

theorem splitDots_no_dot (h : List Char) (hne : h ≠ [])
    (hdot : ∀ c ∈ h, c ≠ '.') : splitDots h = [h] := by
  induction h with
  | nil => exact absurd rfl hne
  | cons c cs ih =>
    have hc : c ≠ '.' := hdot c (by simp)
    simp only [splitDots, hc, if_false]
    by_cases hcs : cs = []
    · subst hcs
      rfl
    · rw [ih hcs (fun x hx => hdot x (by simp [hx]))]

theorem foldl_psl_keep (psl : List (List Char)) (L : List (List Char)) :
    ∀ (l : List Nat), (∀ k ∈ l, 0 < k →
        psl.contains (joinDots (L.drop (L.length - k))) = false) →
      l.foldl (fun best k =>
        if k ≠ 0 && psl.contains (joinDots (L.drop (L.length - k)))
        then k else best) 0 = 0 := by
  intro l
  induction l with
  | nil => intro _; rfl
  | cons a t ih =>
    intro hl
    rw [List.foldl_cons]
    have hcond : (a ≠ 0 && psl.contains (joinDots (L.drop (L.length - a))))
        = false := by
      by_cases ha : a = 0
      · subst ha
        simp
      · rw [hl a (by simp) (Nat.pos_of_ne_zero ha)]
        simp
    rw [hcond]
    simp only [Bool.false_eq_true, if_false]
    exact ih (fun k hk hp => hl k (by simp [hk]) hp)

theorem longestPslSuffix_eq_zero (psl : List (List Char))
    (L : List (List Char))
    (hnone : ∀ k, 0 < k → k ≤ L.length →
      psl.contains (joinDots (L.drop (L.length - k))) = false) :
    longestPslSuffix psl L = 0 := by
  unfold longestPslSuffix
  apply foldl_psl_keep
  intro k hk hpos
  exact hnone k hpos (by
    have := List.mem_range.mp hk
    omega)

/-- C10, counterexample: for a multi-label host with no recognised
suffix the extraction keeps only the last label, so the key is not the
bare host plus a dot — the library documents
`google.notavalidsuffix ↦ domain='notavalidsuffix', suffix=''`. -/
theorem C10_counterexample :
    lenientHost "http://google.notavalidsuffix/".toList
        = "google.notavalidsuffix".toList ∧
    get_domain pslSample "http://google.notavalidsuffix/"
        = "notavalidsuffix." ∧
    get_domain pslSample "http://google.notavalidsuffix/"
        ≠ "google.notavalidsuffix." := by
  refine ⟨by decide, by decide, by decide⟩

/-- C10 (corrected): the extraction never fails and, when no suffix is
recognised, returns `f"{domain}.{suffix}"` with an empty suffix, i.e.
the domain part plus a trailing dot.  For any suffix list: an
IPv4-literal host is kept whole as the domain part; any other host none
of whose dotted suffixes is on the list contributes only its last
`.`-separated label — equal to the bare host exactly when the host is
dot-free, as in the claim's `localhost` example.  In each case this
degenerate string is the `domain` the spider stamps on every item from
that page, the key under which `OutputPipeline` files the result. -/
theorem C10_amended :
    (∀ (psl : List (List Char)) (url : String) (h : List Char),
      lenientHost url.toList = h → looksLikeIp h = true →
      get_domain psl url = ⟨h ++ ['.']⟩ ∧
        ∀ l : String, (spider_item psl url l).domain = ⟨h ++ ['.']⟩) ∧
    (∀ (psl : List (List Char)) (url : String) (h last : List Char)
       (ls : List (List Char)),
      lenientHost url.toList = h → looksLikeIp h = false →
      splitDots h = ls ++ [last] →
      (∀ k, 0 < k → k ≤ ls.length + 1 →
        psl.contains (joinDots ((ls ++ [last]).drop (ls.length + 1 - k)))
          = false) →
      get_domain psl url = ⟨last ++ ['.']⟩ ∧
        ∀ l : String, (spider_item psl url l).domain = ⟨last ++ ['.']⟩) := by
  constructor
  · intro psl url h hh hip
    have hne : ¬ h.isEmpty = true := by
      intro he
      rw [List.isEmpty_iff.mp he] at hip
      exact absurd hip (by decide)
    have hext : tldextractL psl url.toList = ⟨[], h, []⟩ := by
      unfold tldextractL
      rw [hh]
      simp [hne, hip]
    have hdom : get_domain psl url = ⟨h ++ ['.']⟩ := by
      unfold get_domain
      rw [hext]
    exact ⟨hdom, fun l => by simp [spider_item, hdom]⟩
  · intro psl url h last ls hh hip hsplit hnone
    have hext : tldextractL psl url.toList = ⟨joinDots ls, last, []⟩ := by
      by_cases hE : h = []
      · subst hE
        have hll : last = [] ∧ ls = [] := by
          cases ls with
          | nil =>
            have h2 : ([[]] : List (List Char)) = [last] := hsplit
            exact ⟨((List.cons.injEq .. ▸ h2).1).symm, rfl⟩
          | cons a t =>
            exfalso
            have h2 : ([[]] : List (List Char)) = a :: (t ++ [last]) := hsplit
            have hl := congrArg List.length h2
            simp only [List.length_cons, List.length_append,
              List.length_nil] at hl
            omega
        obtain ⟨rfl, rfl⟩ := hll
        unfold tldextractL
        rw [hh]
        rfl
      · have hne : ¬ h.isEmpty = true := fun he => hE (List.isEmpty_iff.mp he)
        have hk0 : longestPslSuffix psl (ls ++ [last]) = 0 := by
          apply longestPslSuffix_eq_zero
          intro k hk1 hk2
          have hlen : (ls ++ [last]).length = ls.length + 1 := by simp
          rw [hlen]
          rw [hlen] at hk2
          exact hnone k hk1 hk2
        unfold tldextractL
        rw [hh]
        simp only [hne, Bool.false_eq_true, if_false, hip, hsplit, hk0,
          if_true]
        have h1 : (ls ++ [last]).length - 1 = ls.length := by simp
        rw [h1, List.take_left, List.drop_left]
        rfl
    have hdom : get_domain psl url = ⟨last ++ ['.']⟩ := by
      unfold get_domain
      rw [hext]
    exact ⟨hdom, fun l => by simp [spider_item, hdom]⟩

/-- Witness for C10_amended: an IPv4 host and the dot-free `localhost`
kept whole, and the documented multi-label no-suffix host reduced to
its last label. -/
theorem C10_witness :
    get_domain pslSample "http://127.0.0.1:8080/x" = "127.0.0.1." ∧
    get_domain pslSample "https://localhost/" = "localhost." ∧
    (spider_item pslSample "http://google.notavalidsuffix/"
        "http://google.notavalidsuffix/p/1").domain = "notavalidsuffix." := by
  refine ⟨?_, ?_, ?_⟩
  · exact ((C10_amended.1 pslSample "http://127.0.0.1:8080/x"
      "127.0.0.1".toList (by decide) (by decide)).1).trans (by decide)
  · exact ((C10_amended.2 pslSample "https://localhost/"
      "localhost".toList "localhost".toList [] (by decide) (by decide)
      (by decide)
      (fun k hk1 hk2 => by
        simp only [List.length_nil] at hk2
        have hk : k = 1 := by omega
        subst hk
        decide)).1).trans (by decide)
  · exact (((C10_amended.2 pslSample "http://google.notavalidsuffix/"
      "google.notavalidsuffix".toList "notavalidsuffix".toList
      ["google".toList] (by decide) (by decide) (by decide)
      (fun k hk1 hk2 => by
        simp only [List.length_cons, List.length_nil] at hk2
        have hk : k = 1 ∨ k = 2 := by omega
        rcases hk with rfl | rfl <;> decide)).2)
      "http://google.notavalidsuffix/p/1").trans (by decide)

/-! ## Lemma kit for the `urllib.parse` model

Structural lemmas about the splitting primitives and the character
classes, used to prove the parse/unparse round trip behind claims C5, C6
and C9. -/

theorem splitOnce_eq_some {sep : Char} :
    ∀ {l a b : List Char}, splitOnce sep l = some (a, b) →
      sep ∉ a ∧ l = a ++ sep :: b := by
  intro l
  induction l with
  | nil => intro a b h; exact absurd h (by simp [splitOnce])
  | cons c cs ih =>
    intro a b h
    unfold splitOnce at h
    split_ifs at h with hc
    · subst hc
      obtain ⟨rfl, rfl⟩ := Prod.mk.injEq .. ▸ (Option.some.injEq .. ▸ h)
      exact ⟨by simp, rfl⟩
    · cases hs : splitOnce sep cs with
      | none => rw [hs] at h; exact absurd h (by simp)
      | some ab =>
        obtain ⟨a', b'⟩ := ab
        rw [hs] at h
        obtain ⟨rfl, rfl⟩ := Prod.mk.injEq .. ▸ (Option.some.injEq .. ▸ h)
        obtain ⟨hmem, heq⟩ := ih hs
        constructor
        · intro hm
          rcases List.mem_cons.mp hm with rfl | hm
          · exact hc rfl
          · exact hmem hm
        · rw [heq]; rfl

theorem splitOnce_eq_none {sep : Char} :
    ∀ {l : List Char}, splitOnce sep l = none ↔ sep ∉ l := by
  intro l
  induction l with
  | nil => simp [splitOnce]
  | cons c cs ih =>
    unfold splitOnce
    split_ifs with hc
    · subst hc; simp
    · cases hs : splitOnce sep cs with
      | none => simpa [hs, Ne.symm hc] using ih.mp hs
      | some ab =>
        simp only [hs]
        constructor
        · intro h; exact absurd h (by simp)
        · intro h
          exact absurd (ih.mpr (fun hm => h (List.mem_cons.mpr (Or.inr hm)))) (by simp [hs])

theorem splitOnce_append {sep : Char} :
    ∀ {a : List Char} (b : List Char), sep ∉ a →
      splitOnce sep (a ++ sep :: b) = some (a, b) := by
  intro a
  induction a with
  | nil => intro b _; simp [splitOnce]
  | cons c cs ih =>
    intro b h
    have hc : ¬ c = sep := fun hc => h (hc ▸ List.mem_cons_self c cs)
    have hcs : sep ∉ cs := fun hm => h (List.mem_cons.mpr (Or.inr hm))
    rw [List.cons_append]
    unfold splitOnce
    rw [if_neg hc, ih b hcs]

theorem rsplitOnce_eq_none {sep : Char} :
    ∀ {l : List Char}, rsplitOnce sep l = none ↔ sep ∉ l := by
  intro l
  induction l with
  | nil => simp [rsplitOnce]
  | cons c cs ih =>
    unfold rsplitOnce
    cases hs : rsplitOnce sep cs with
    | some ab =>
      obtain ⟨a, b⟩ := ab
      have hmem : sep ∈ cs := by
        by_contra hm
        rw [ih.mpr hm] at hs
        exact absurd hs (by simp)
      simp [hmem]
    | none =>
      have hm := ih.mp hs
      split_ifs with hc
      · subst hc; simp
      · simp [hm, Ne.symm hc]

theorem rsplitOnce_append {sep : Char} :
    ∀ (a : List Char) {b : List Char}, sep ∉ b →
      rsplitOnce sep (a ++ sep :: b) = some (a, b) := by
  intro a
  induction a with
  | nil =>
    intro b h
    rw [List.nil_append]
    unfold rsplitOnce
    rw [rsplitOnce_eq_none.mpr h, if_pos rfl]
  | cons c cs ih =>
    intro b h
    rw [List.cons_append]
    unfold rsplitOnce
    rw [ih h]

theorem rsplitOnce_eq_some {sep : Char} :
    ∀ {l a b : List Char}, rsplitOnce sep l = some (a, b) →
      sep ∉ b ∧ l = a ++ sep :: b := by
  intro l
  induction l with
  | nil => intro a b h; exact absurd h (by simp [rsplitOnce])
  | cons c cs ih =>
    intro a b h
    unfold rsplitOnce at h
    cases hs : rsplitOnce sep cs with
    | some ab =>
      obtain ⟨a', b'⟩ := ab
      rw [hs] at h
      obtain ⟨rfl, rfl⟩ := Prod.mk.injEq .. ▸ (Option.some.injEq .. ▸ h)
      obtain ⟨hmem, heq⟩ := ih hs
      exact ⟨hmem, by rw [heq]; rfl⟩
    | none =>
      rw [hs] at h
      split_ifs at h with hc
      subst hc
      obtain ⟨rfl, rfl⟩ := Prod.mk.injEq .. ▸ (Option.some.injEq .. ▸ h)
      exact ⟨rsplitOnce_eq_none.mp hs, rfl⟩

/-- The netloc delimiters of `_splitnetloc`. -/
def isNetDelim (c : Char) : Prop := c = '/' ∨ c = '?' ∨ c = '#'

instance (c : Char) : Decidable (isNetDelim c) := by
  unfold isNetDelim
  infer_instance

theorem takeNetloc_eq :
    ∀ {l a b : List Char}, takeNetloc l = (a, b) →
      l = a ++ b ∧ (∀ c ∈ a, ¬ isNetDelim c) ∧
        (b = [] ∨ ∃ c cs, b = c :: cs ∧ isNetDelim c) := by
  intro l
  induction l with
  | nil =>
    intro a b h
    obtain ⟨rfl, rfl⟩ := Prod.mk.injEq .. ▸ h
    exact ⟨rfl, by simp, Or.inl rfl⟩
  | cons c cs ih =>
    intro a b h
    unfold takeNetloc at h
    split_ifs at h with hd
    · obtain ⟨rfl, rfl⟩ := Prod.mk.injEq .. ▸ h
      refine ⟨rfl, by simp, Or.inr ⟨c, cs, rfl, ?_⟩⟩
      unfold isNetDelim
      simp only [Bool.or_eq_true, decide_eq_true_eq] at hd
      tauto
    · cases htn : takeNetloc cs with
      | mk a' b' =>
        rw [htn] at h
        obtain ⟨rfl, rfl⟩ := Prod.mk.injEq .. ▸ h
        obtain ⟨heq, hmem, hend⟩ := ih htn
        refine ⟨by rw [heq]; rfl, ?_, hend⟩
        intro x hx
        rcases List.mem_cons.mp hx with rfl | hx
        · unfold isNetDelim
          simp only [Bool.or_eq_true, decide_eq_true_eq] at hd
          tauto
        · exact hmem x hx

theorem takeNetloc_append :
    ∀ {a : List Char} (b : List Char), (∀ c ∈ a, ¬ isNetDelim c) →
      (b = [] ∨ ∃ c cs, b = c :: cs ∧ isNetDelim c) →
      takeNetloc (a ++ b) = (a, b) := by
  intro a
  induction a with
  | nil =>
    intro b _ hb
    rcases hb with rfl | ⟨c, cs, rfl, hc⟩
    · rfl
    · rw [List.nil_append]
      unfold takeNetloc
      rw [if_pos (by
        unfold isNetDelim at hc
        simp only [Bool.or_eq_true, decide_eq_true_eq]
        tauto)]
  | cons c cs ih =>
    intro b ha hb
    have hc : ¬ (c = '/' || c = '?' || c = '#') = true := by
      have hn := ha c (by simp)
      unfold isNetDelim at hn
      simp only [Bool.or_eq_true, decide_eq_true_eq]
      tauto
    rw [List.cons_append]
    unfold takeNetloc
    rw [if_neg hc, ih b (fun x hx => ha x (List.mem_cons.mpr (Or.inr hx))) hb]

/-! ### ASCII lower-casing lemmas -/

theorem charOfNat_toNat {n : Nat} (h1 : 97 ≤ n) (h2 : n ≤ 122) :
    (Char.ofNat n).toNat = n := by
  have hv : n.isValidChar := Or.inl (by omega)
  rw [Char.ofNat, dif_pos hv]
  show (UInt32.ofNat' n _).toNat = n
  simp [UInt32.ofNat', UInt32.toNat]

theorem lowerC_toNat_of_upper {c : Char} (h1 : 65 ≤ c.toNat) (h2 : c.toNat ≤ 90) :
    (lowerC c).toNat = c.toNat + 32 := by
  unfold lowerC
  rw [if_pos ⟨h1, h2⟩]
  exact charOfNat_toNat (by omega) (by omega)

theorem lowerC_not_upper {c : Char} (h : ¬ (65 ≤ c.toNat ∧ c.toNat ≤ 90)) :
    lowerC c = c := by
  unfold lowerC
  rw [if_neg h]

theorem lowerC_cases (c : Char) :
    lowerC c = c ∨ (97 ≤ (lowerC c).toNat ∧ (lowerC c).toNat ≤ 122) := by
  by_cases h : 65 ≤ c.toNat ∧ c.toNat ≤ 90
  · right
    rw [lowerC_toNat_of_upper h.1 h.2]
    omega
  · left
    exact lowerC_not_upper h

theorem lowerC_idem (c : Char) : lowerC (lowerC c) = lowerC c := by
  by_cases h : 65 ≤ c.toNat ∧ c.toNat ≤ 90
  · apply lowerC_not_upper
    rw [lowerC_toNat_of_upper h.1 h.2]
    omega
  · rw [lowerC_not_upper h, lowerC_not_upper h]

theorem toLowerL_idem (l : List Char) : toLowerL (toLowerL l) = toLowerL l := by
  simp only [toLowerL, List.map_map]
  exact List.map_congr_left (fun c _ => lowerC_idem c)

theorem char_ne_of_toNat_ne {c d : Char} (h : c.toNat ≠ d.toNat) : c ≠ d :=
  fun hc => h (hc ▸ rfl)

/-- The possible code points of a scheme character. -/
theorem scheme_chars_toNat {c : Char} (h : scheme_chars c = true) :
    c.toNat = 43 ∨ c.toNat = 45 ∨ c.toNat = 46 ∨
      (48 ≤ c.toNat ∧ c.toNat ≤ 57) ∨ (65 ≤ c.toNat ∧ c.toNat ≤ 90) ∨
      (97 ≤ c.toNat ∧ c.toNat ≤ 122) := by
  unfold scheme_chars isAsciiAlphaCh isAsciiDigitCh at h
  simp only [Bool.or_eq_true, Bool.and_eq_true, decide_eq_true_eq, or_assoc] at h
  rcases h with ⟨h1, h2⟩ | ⟨h1, h2⟩ | ⟨h1, h2⟩ | rfl | rfl | rfl <;>
    first | omega | decide

theorem scheme_chars_lowerC {c : Char} (h : scheme_chars c = true) :
    scheme_chars (lowerC c) = true := by
  rcases lowerC_cases c with hc | ⟨h1, h2⟩
  · rw [hc]; exact h
  · have : isAsciiAlphaCh (lowerC c) = true := by
      unfold isAsciiAlphaCh
      simp only [Bool.or_eq_true, Bool.and_eq_true, decide_eq_true_eq]
      right
      exact ⟨h1, h2⟩
    unfold scheme_chars
    simp [this]

theorem isAsciiAlphaCh_lowerC {c : Char} (h : isAsciiAlphaCh c = true) :
    isAsciiAlphaCh (lowerC c) = true := by
  rcases lowerC_cases c with hc | ⟨h1, h2⟩
  · rw [hc]; exact h
  · unfold isAsciiAlphaCh
    simp only [Bool.or_eq_true, Bool.and_eq_true, decide_eq_true_eq]
    right
    exact ⟨h1, h2⟩

theorem scheme_chars_props {c : Char} (h : scheme_chars c = true) :
    c ≠ ':' ∧ c ≠ '/' ∧ c ≠ '?' ∧ c ≠ '#' ∧ c ≠ ';' ∧ 32 < c.toNat := by
  have ht := scheme_chars_toNat h
  have e1 : (':' : Char).toNat = 58 := by decide
  have e2 : ('/' : Char).toNat = 47 := by decide
  have e3 : ('?' : Char).toNat = 63 := by decide
  have e4 : ('#' : Char).toNat = 35 := by decide
  have e5 : (';' : Char).toNat = 59 := by decide
  exact ⟨char_ne_of_toNat_ne (by rw [e1]; omega),
         char_ne_of_toNat_ne (by rw [e2]; omega),
         char_ne_of_toNat_ne (by rw [e3]; omega),
         char_ne_of_toNat_ne (by rw [e4]; omega),
         char_ne_of_toNat_ne (by rw [e5]; omega),
         by omega⟩

/-! ### `wsClean` lemmas -/

theorem wsClean_subset {c : Char} {l : List Char} (h : c ∈ wsClean l) : c ∈ l := by
  unfold wsClean at h
  exact (List.dropWhile_sublist _).subset (List.mem_of_mem_filter h)

theorem wsClean_no_removed {c : Char} {l : List Char} (h : c ∈ wsClean l) :
    c ≠ '\t' ∧ c ≠ '\r' ∧ c ≠ '\n' := by
  unfold wsClean at h
  have hf := List.of_mem_filter h
  refine ⟨?_, ?_, ?_⟩ <;> (intro hc; subst hc; simp at hf)

theorem wsClean_eq_self {l : List Char}
    (hhead : l = [] ∨ ∃ c cs, l = c :: cs ∧ 32 < c.toNat)
    (htabs : ∀ c ∈ l, c ≠ '\t' ∧ c ≠ '\r' ∧ c ≠ '\n') : wsClean l = l := by
  unfold wsClean
  have hdrop : l.dropWhile (fun c => c.toNat ≤ 32) = l := by
    rcases hhead with rfl | ⟨c, cs, rfl, hc⟩
    · rfl
    · rw [List.dropWhile_cons_of_neg]
      simp only [decide_eq_true_eq]
      omega
  rw [hdrop]
  apply List.filter_eq_self.mpr
  intro a ha
  obtain ⟨h1, h2, h3⟩ := htabs a ha
  simp [h1, h2, h3]

/-! ### `schemeSplit` lemmas -/

theorem schemeSplit_valid {s : List Char} (r : List Char)
    (c : Char) (t : List Char) (hs : s = c :: t)
    (hhead : isAsciiAlphaCh c = true)
    (hall : s.all scheme_chars = true) :
    schemeSplit (s ++ ':' :: r) = (toLowerL s, r) := by
  have hcolon : ':' ∉ s := by
    intro hm
    have hc := List.all_eq_true.mp hall ':' hm
    exact absurd hc (by decide)
  unfold schemeSplit
  rw [splitOnce_append r hcolon]
  dsimp only
  rw [if_pos]
  simp only [Bool.and_eq_true]
  refine ⟨⟨?_, ?_⟩, hall⟩
  · simp [hs]
  · rw [hs]
    exact hhead

theorem schemeSplit_eq {l s r : List Char} (h : schemeSplit l = (s, r)) :
    (s = [] ∧ r = l) ∨
      (∃ (c : Char) (t : List Char), l = (c :: t) ++ ':' :: r ∧
        s = toLowerL (c :: t) ∧ isAsciiAlphaCh c = true ∧
        (c :: t).all scheme_chars = true ∧ ':' ∉ c :: t) := by
  unfold schemeSplit at h
  cases hsp : splitOnce ':' l with
  | none =>
    rw [hsp] at h
    obtain ⟨rfl, rfl⟩ := Prod.mk.injEq .. ▸ h
    exact Or.inl ⟨rfl, rfl⟩
  | some ab =>
    obtain ⟨before, after⟩ := ab
    rw [hsp] at h
    dsimp only at h
    split_ifs at h with hcond
    · simp only [Bool.and_eq_true] at hcond
      obtain ⟨⟨hne, hhead⟩, hall⟩ := hcond
      obtain ⟨rfl, rfl⟩ := Prod.mk.injEq .. ▸ h
      obtain ⟨hmem, heq⟩ := splitOnce_eq_some hsp
      right
      rcases before with _ | ⟨c, t⟩
      · exact absurd hne (by simp)
      · exact ⟨c, t, heq, rfl, hhead, hall, hmem⟩
    · obtain ⟨rfl, rfl⟩ := Prod.mk.injEq .. ▸ h
      exact Or.inl ⟨rfl, rfl⟩

/-! ### Fragment/query wrappers, parameter-splitting and membership
lemmas -/

/-- No tab, carriage return or line feed (the characters `urlsplit`
removes). -/
def noCtl (l : List Char) : Prop := ∀ c ∈ l, c ≠ '\t' ∧ c ≠ '\r' ∧ c ≠ '\n'

/-- The last `/`-separated segment carries no `;` (so `_splitparams`
refuses to split). -/
def pathParamsOk (p : List Char) : Prop :=
  match rsplitOnce '/' p with
  | some (_, lastSeg) => ';' ∉ lastSeg
  | none => ';' ∉ p

theorem fragSplit_no_mem {l : List Char} (h : '#' ∉ l) : fragSplit l = (l, []) := by
  unfold fragSplit
  rw [splitOnce_eq_none.mpr h]

theorem fragSplit_append {a : List Char} (b : List Char) (h : '#' ∉ a) :
    fragSplit (a ++ '#' :: b) = (a, b) := by
  unfold fragSplit
  rw [splitOnce_append b h]

theorem querySplit_no_mem {l : List Char} (h : '?' ∉ l) : querySplit l = (l, []) := by
  unfold querySplit
  rw [splitOnce_eq_none.mpr h]

theorem querySplit_append {a : List Char} (b : List Char) (h : '?' ∉ a) :
    querySplit (a ++ '?' :: b) = (a, b) := by
  unfold querySplit
  rw [splitOnce_append b h]

theorem splitOnce_fst_head {sep : Char} {l a b : List Char}
    (h : splitOnce sep l = some (a, b)) : a = [] ∨ a.head? = l.head? := by
  obtain ⟨_, heq⟩ := splitOnce_eq_some h
  cases a with
  | nil => exact Or.inl rfl
  | cons c t => right; rw [heq]; rfl

theorem matchUtm_mem {l r : List Char} (h : matchUtm l = some r) :
    ∀ c ∈ r, c ∈ l := by
  unfold matchUtm at h
  split at h
  · rename_i rest
    split_ifs at h
    · split at h
      · rename_i r2 heq
        have hsub2 : ∀ c ∈ r2, c ∈ rest := by
          intro c hc
          have h1 : c ∈ ('=' :: r2) := List.mem_cons.mpr (Or.inr hc)
          rw [← heq] at h1
          exact (List.dropWhile_sublist _).subset h1
        have hsub3 : ∀ c ∈ r2.dropWhile (fun c => !(c = '&')), c ∈ rest := by
          intro c hc
          exact hsub2 c ((List.dropWhile_sublist _).subset hc)
        split at h
        · rename_i r4 heq4
          obtain rfl := Option.some.injEq .. ▸ h
          intro c hc
          have h4 : c ∈ ('&' :: r4) := List.mem_cons.mpr (Or.inr hc)
          rw [← heq4] at h4
          simp only [List.mem_cons]
          right; right; right; right
          exact hsub3 c h4
        · obtain rfl := Option.some.injEq .. ▸ h
          intro c hc
          simp only [List.mem_cons]
          right; right; right; right
          exact hsub3 c hc
      · exact absurd h (by simp)
  · exact absurd h (by simp)

theorem reSubUtmAux_subset :
    ∀ (n : Nat) (l : List Char), ∀ c ∈ reSubUtmAux n l, c ∈ l := by
  intro n
  induction n with
  | zero => intro l c hc; exact hc
  | succ n ih =>
    intro l c hc
    cases l with
    | nil => simp [reSubUtmAux] at hc
    | cons d ds =>
      simp only [reSubUtmAux] at hc
      cases hm : matchUtm (d :: ds) with
      | some rest =>
        rw [hm] at hc
        exact matchUtm_mem hm c (ih rest c hc)
      | none =>
        rw [hm] at hc
        rcases List.mem_cons.mp hc with rfl | hc
        · exact List.mem_cons_self _ _
        · exact List.mem_cons.mpr (Or.inr (ih ds c hc))

theorem reSubUtm_subset {l : List Char} : ∀ c ∈ reSubUtm l, c ∈ l :=
  reSubUtmAux_subset l.length l

/-! ### The parse/unparse round trip -/

theorem urlunsplit_form (s n p2 q : List Char) (hs : s ≠ []) (hn : n ≠ [])
    (hp2 : p2 = [] ∨ ∃ t, p2 = '/' :: t) :
    urlunsplitL s n p2 q [] =
      s ++ ':' :: '/' :: '/' :: (n ++ (p2 ++ if q = [] then [] else '?' :: q)) := by
  unfold urlunsplitL
  have hn' : (!n.isEmpty) = true := by
    cases n
    · exact absurd rfl hn
    · rfl
  have hs' : (!s.isEmpty) = true := by
    cases s
    · exact absurd rfl hs
    · rfl
  have hp2' : (!p2.isEmpty && !(p2.head? == some '/')) = false := by
    rcases hp2 with rfl | ⟨t, rfl⟩ <;> simp
  rw [hn', hs', hp2']
  simp only [Bool.true_or, if_true, Bool.false_eq_true, if_false]
  cases hq : q with
  | nil => simp
  | cons c cs => simp [List.append_assoc]

theorem urlsplit_roundtrip (s n p2 q : List Char)
    (hshead : ∃ c t, s = c :: t ∧ isAsciiAlphaCh c = true)
    (hall : s.all scheme_chars = true) (hlow : toLowerL s = s)
    (hn : n ≠ []) (hnd : ∀ c ∈ n, ¬ isNetDelim c) (hnctl : noCtl n)
    (hp2 : p2 = [] ∨ ∃ t, p2 = '/' :: t) (hp2q : '?' ∉ p2) (hp2f : '#' ∉ p2)
    (hp2ctl : noCtl p2)
    (hqf : '#' ∉ q) (hqctl : noCtl q) :
    urlsplitL (urlunsplitL s n p2 q []) = ⟨s, n, p2, q, []⟩ := by
  obtain ⟨c0, t0, hs0, hc0⟩ := hshead
  have hs : s ≠ [] := by rw [hs0]; simp
  rw [urlunsplit_form s n p2 q hs hn hp2]
  set tail := p2 ++ if q = [] then [] else '?' :: q with htail
  -- the assembled URL is left untouched by the whitespace cleaning
  have hschars : ∀ c ∈ s, scheme_chars c = true := fun c hc => List.all_eq_true.mp hall c hc
  have hwhole : wsClean (s ++ ':' :: '/' :: '/' :: (n ++ tail)) =
      s ++ ':' :: '/' :: '/' :: (n ++ tail) := by
    apply wsClean_eq_self
    · right
      refine ⟨c0, t0 ++ ':' :: '/' :: '/' :: (n ++ tail), by rw [hs0]; rfl, ?_⟩
      have := (scheme_chars_props (hschars c0 (by rw [hs0]; simp))).2.2.2.2.2
      omega
    · intro c hc
      simp only [List.mem_append, List.mem_cons] at hc
      rcases hc with hc | rfl | rfl | rfl | hc | hc
      · have h32 := (scheme_chars_props (hschars c hc)).2.2.2.2.2
        refine ⟨?_, ?_, ?_⟩ <;> (apply char_ne_of_toNat_ne; intro he; rw [he] at h32)
        · exact absurd h32 (by decide)
        · exact absurd h32 (by decide)
        · exact absurd h32 (by decide)
      · refine ⟨by decide, by decide, by decide⟩
      · refine ⟨by decide, by decide, by decide⟩
      · refine ⟨by decide, by decide, by decide⟩
      · exact hnctl c hc
      · rw [htail] at hc
        simp only [List.mem_append] at hc
        rcases hc with hc | hc
        · exact hp2ctl c hc
        · cases hq : q with
          | nil => rw [hq] at hc; simp at hc
          | cons d ds =>
            rw [hq] at hc
            simp only [if_neg (by simp : ¬ (d :: ds : List Char) = []), List.mem_cons] at hc
            rcases hc with rfl | hc
            · refine ⟨by decide, by decide, by decide⟩
            · rcases hc with rfl | hc
              · exact hqctl c (by rw [hq]; exact List.mem_cons_self _ _)
              · exact hqctl c (by rw [hq]; exact List.mem_cons.mpr (Or.inr hc))
  have h1 : schemeSplit (s ++ ':' :: '/' :: '/' :: (n ++ tail)) =
      (s, '/' :: '/' :: (n ++ tail)) := by
    rw [schemeSplit_valid ('/' :: '/' :: (n ++ tail)) c0 t0 hs0 hc0 hall, hlow]
  have htailok : tail = [] ∨ ∃ c cs, tail = c :: cs ∧ isNetDelim c := by
    rw [htail]
    rcases hp2 with rfl | ⟨t, rfl⟩
    · cases hq : q with
      | nil => exact Or.inl rfl
      | cons d ds =>
        right
        exact ⟨'?', ds.cons d |> fun x => x, by simp, Or.inr (Or.inl rfl)⟩
    · right
      exact ⟨'/', t ++ if q = [] then [] else '?' :: q, rfl, Or.inl rfl⟩
  have h2 : netlocSplit ('/' :: '/' :: (n ++ tail)) = (n, tail) := by
    unfold netlocSplit
    exact takeNetloc_append tail hnd htailok
  have h3 : fragSplit tail = (tail, []) := by
    apply fragSplit_no_mem
    rw [htail]
    intro hm
    rcases List.mem_append.mp hm with hm | hm
    · exact hp2f hm
    · cases hq : q with
      | nil => rw [hq] at hm; simp at hm
      | cons d ds =>
        rw [hq] at hm
        simp only [if_neg (by simp : ¬ (d :: ds : List Char) = []),
          List.mem_cons] at hm
        rcases hm with hm | hm
        · exact absurd hm.symm (by decide)
        · rcases hm with hm | hm
          · exact hqf (by rw [hq]; exact List.mem_cons.mpr (Or.inl hm))
          · exact hqf (by rw [hq]; exact List.mem_cons.mpr (Or.inr hm))
  have h4 : querySplit tail = (p2, q) := by
    rw [htail]
    cases hq : q with
    | nil =>
      rw [if_pos rfl, List.append_nil]
      exact querySplit_no_mem hp2q
    | cons d ds =>
      rw [if_neg (by simp : ¬ (d :: ds : List Char) = [])]
      exact querySplit_append _ hp2q
  unfold urlsplitL
  rw [hwhole, h1]
  dsimp only
  rw [h2]
  dsimp only
  rw [h3]
  dsimp only
  rw [h4]

theorem splitparams_no_split {p : List Char} (hp : pathParamsOk p) :
    splitparams p = (p, []) := by
  unfold splitparams
  unfold pathParamsOk at hp
  cases hr : rsplitOnce '/' p with
  | some ab =>
    obtain ⟨pre, lastSeg⟩ := ab
    rw [hr] at hp
    dsimp only at hp ⊢
    rw [splitOnce_eq_none.mpr hp]
  | none =>
    rw [hr] at hp
    dsimp only at hp ⊢
    rw [splitOnce_eq_none.mpr hp]

theorem splitparams_append {p par : List Char}
    (hslash : '/' ∈ p) (hp : pathParamsOk p) (hpar : '/' ∉ par) :
    splitparams (p ++ ';' :: par) = (p, par) := by
  cases hr : rsplitOnce '/' p with
  | none => exact absurd hslash (rsplitOnce_eq_none.mp hr)
  | some ab =>
    obtain ⟨pre, lastSeg⟩ := ab
    obtain ⟨hls, heq⟩ := rsplitOnce_eq_some hr
    have hfull : p ++ ';' :: par = pre ++ '/' :: (lastSeg ++ ';' :: par) := by
      rw [heq]
      simp
    have hnoslash : '/' ∉ lastSeg ++ ';' :: par := by
      intro hm
      rcases List.mem_append.mp hm with hm | hm
      · exact hls hm
      · rcases List.mem_cons.mp hm with hm | hm
        · exact absurd hm (by decide)
        · exact hpar hm
    have hp' : ';' ∉ lastSeg := by
      unfold pathParamsOk at hp
      rw [hr] at hp
      exact hp
    unfold splitparams
    rw [hfull, rsplitOnce_append pre hnoslash]
    dsimp only
    rw [splitOnce_append par hp']
    rw [heq]

/-- Invariants satisfied by every `urlparseL` output, sufficient for the
unparse/reparse round trip. -/
structure ParseInv (r : ParseResult) : Prop where
  scheme_all : r.scheme.all scheme_chars = true
  scheme_low : toLowerL r.scheme = r.scheme
  scheme_head : r.scheme = [] ∨ ∃ c t, r.scheme = c :: t ∧ isAsciiAlphaCh c = true
  netloc_delim : ∀ c ∈ r.netloc, ¬ isNetDelim c
  netloc_ctl : noCtl r.netloc
  path_q : '?' ∉ r.path
  path_f : '#' ∉ r.path
  path_ctl : noCtl r.path
  path_head : r.netloc ≠ [] → (r.path = [] ∨ ∃ t, r.path = '/' :: t)
  path_semi : uses_params.contains r.scheme = true → pathParamsOk r.path
  params_free : '/' ∉ r.params ∧ '?' ∉ r.params ∧ '#' ∉ r.params
  params_ctl : noCtl r.params
  params_use : ¬ uses_params.contains r.scheme = true → r.params = []
  params_path : r.netloc ≠ [] → r.params ≠ [] → ∃ t, r.path = '/' :: t
  query_f : '#' ∉ r.query
  query_ctl : noCtl r.query

theorem urlparse_roundtrip (s n p par q : List Char)
    (hinv : ParseInv ⟨s, n, p, par, q, []⟩)
    (hshead : ∃ c t, s = c :: t ∧ isAsciiAlphaCh c = true)
    (hn : n ≠ []) :
    urlparseL (urlunparseL ⟨s, n, p, par, q, []⟩) = ⟨s, n, p, par, q, []⟩ := by
  obtain ⟨hall, hlow, _, hnd, hnctl, hpq, hpf, hpctl, hph, hpsemi,
    hparf, hparctl, hparuse, hparp, hqf, hqctl⟩ := hinv
  dsimp only at hall hlow hnd hnctl hpq hpf hpctl hph hpsemi hparf hparctl hparuse hparp hqf hqctl
  have hph' := hph hn
  by_cases hpar : par = []
  · have hp2 : urlunparseL ⟨s, n, p, par, q, []⟩ = urlunsplitL s n p q [] := by
      unfold urlunparseL
      rw [hpar]
      rfl
    rw [hp2]
    have hsplit := urlsplit_roundtrip s n p q hshead hall hlow hn hnd hnctl
      hph' hpq hpf hpctl hqf hqctl
    unfold urlparseL
    rw [hsplit]
    dsimp only
    by_cases hcond : (uses_params.contains s && p.contains ';') = true
    · have huse : uses_params.contains s = true := (Bool.and_eq_true .. ▸ hcond).1
      rw [if_pos hcond, splitparams_no_split (hpsemi huse), hpar]
    · rw [if_neg hcond, hpar]
  · obtain ⟨t, hpt⟩ := hparp hn hpar
    have hslash : '/' ∈ p := by rw [hpt]; simp
    have huse : uses_params.contains s = true := by
      by_contra hc
      exact hpar (hparuse hc)
    have hparE : (!par.isEmpty) = true := by
      cases par
      · exact absurd rfl hpar
      · rfl
    have hp2 : urlunparseL ⟨s, n, p, par, q, []⟩ =
        urlunsplitL s n (p ++ ';' :: par) q [] := by
      unfold urlunparseL
      dsimp only
      rw [hparE]
      rfl
    rw [hp2]
    have hp2h : p ++ ';' :: par = [] ∨ ∃ t2, p ++ ';' :: par = '/' :: t2 := by
      right
      rw [hpt]
      exact ⟨t ++ ';' :: par, rfl⟩
    have hp2q : '?' ∉ p ++ ';' :: par := by
      intro hm
      rcases List.mem_append.mp hm with hm | hm
      · exact hpq hm
      · rcases List.mem_cons.mp hm with hm | hm
        · exact absurd hm (by decide)
        · exact hparf.2.1 hm
    have hp2f : '#' ∉ p ++ ';' :: par := by
      intro hm
      rcases List.mem_append.mp hm with hm | hm
      · exact hpf hm
      · rcases List.mem_cons.mp hm with hm | hm
        · exact absurd hm (by decide)
        · exact hparf.2.2 hm
    have hp2ctl : noCtl (p ++ ';' :: par) := by
      intro c hc
      rcases List.mem_append.mp hc with hc | hc
      · exact hpctl c hc
      · rcases List.mem_cons.mp hc with rfl | hc
        · exact ⟨by decide, by decide, by decide⟩
        · exact hparctl c hc
    have hsplit := urlsplit_roundtrip s n (p ++ ';' :: par) q hshead hall hlow
      hn hnd hnctl hp2h hp2q hp2f hp2ctl hqf hqctl
    unfold urlparseL
    rw [hsplit]
    dsimp only
    have hcontains : ((p ++ ';' :: par).contains ';') = true := by
      have hm : ';' ∈ p ++ ';' :: par :=
        List.mem_append.mpr (Or.inr (List.mem_cons_self _ _))
      rw [List.contains_eq_any_beq]
      rw [List.any_eq_true]
      exact ⟨';', hm, by simp⟩
    rw [if_pos (by rw [huse, hcontains]; rfl)]
    rw [splitparams_append hslash (hpsemi huse) hparf.1]

theorem netlocSplit_eq {l nl r : List Char} (h : netlocSplit l = (nl, r)) :
    (nl = [] ∧ r = l) ∨ (∃ rest, l = '/' :: '/' :: rest ∧ takeNetloc rest = (nl, r)) := by
  unfold netlocSplit at h
  split at h
  · rename_i rest
    exact Or.inr ⟨rest, rfl, h⟩
  · obtain ⟨rfl, rfl⟩ := Prod.mk.injEq .. ▸ h
    exact Or.inl ⟨rfl, rfl⟩

theorem fragSplit_eq {l a b : List Char} (h : fragSplit l = (a, b)) :
    '#' ∉ a ∧ (l = a ++ '#' :: b ∨ (a = l ∧ b = [] ∧ '#' ∉ l)) ∧
      (a = [] ∨ a.head? = l.head?) := by
  unfold fragSplit at h
  cases hs : splitOnce '#' l with
  | some ab =>
    obtain ⟨a', b'⟩ := ab
    rw [hs] at h
    obtain ⟨rfl, rfl⟩ := Prod.mk.injEq .. ▸ h
    obtain ⟨hmem, heq⟩ := splitOnce_eq_some hs
    exact ⟨hmem, Or.inl heq, splitOnce_fst_head hs⟩
  | none =>
    rw [hs] at h
    obtain ⟨rfl, rfl⟩ := Prod.mk.injEq .. ▸ h
    have hnm := splitOnce_eq_none.mp hs
    exact ⟨hnm, Or.inr ⟨rfl, rfl, hnm⟩, Or.inr rfl⟩

theorem querySplit_eq {l a b : List Char} (h : querySplit l = (a, b)) :
    '?' ∉ a ∧ (l = a ++ '?' :: b ∨ (a = l ∧ b = [] ∧ '?' ∉ l)) ∧
      (a = [] ∨ a.head? = l.head?) := by
  unfold querySplit at h
  cases hs : splitOnce '?' l with
  | some ab =>
    obtain ⟨a', b'⟩ := ab
    rw [hs] at h
    obtain ⟨rfl, rfl⟩ := Prod.mk.injEq .. ▸ h
    obtain ⟨hmem, heq⟩ := splitOnce_eq_some hs
    exact ⟨hmem, Or.inl heq, splitOnce_fst_head hs⟩
  | none =>
    rw [hs] at h
    obtain ⟨rfl, rfl⟩ := Prod.mk.injEq .. ▸ h
    have hnm := splitOnce_eq_none.mp hs
    exact ⟨hnm, Or.inr ⟨rfl, rfl, hnm⟩, Or.inr rfl⟩

theorem pathParamsOk_of_no_semi {p : List Char} (h : ';' ∉ p) : pathParamsOk p := by
  unfold pathParamsOk
  cases hr : rsplitOnce '/' p with
  | some ab =>
    obtain ⟨pre, lastSeg⟩ := ab
    obtain ⟨_, heq⟩ := rsplitOnce_eq_some hr
    dsimp only
    intro hm
    apply h
    rw [heq]
    simp [hm]
  | none => exact h

theorem splitparams_out {p a b : List Char} (h : splitparams p = (a, b)) :
    (∀ c ∈ a, c ∈ p) ∧ (∀ c ∈ b, c ∈ p) ∧ pathParamsOk a ∧ '/' ∉ b ∧
      ('/' ∈ p → a ≠ [] ∧ a.head? = p.head?) := by
  unfold splitparams at h
  cases hr : rsplitOnce '/' p with
  | some ab =>
    obtain ⟨pre, lastSeg⟩ := ab
    rw [hr] at h
    dsimp only at h
    obtain ⟨hls, heqp⟩ := rsplitOnce_eq_some hr
    cases hsc : splitOnce ';' lastSeg with
    | some xy =>
      obtain ⟨x, y⟩ := xy
      rw [hsc] at h
      obtain ⟨rfl, rfl⟩ := Prod.mk.injEq .. ▸ h
      obtain ⟨hxns, heqls⟩ := splitOnce_eq_some hsc
      have hxsub : ∀ c ∈ x, c ∈ lastSeg := by
        intro c hc
        rw [heqls]
        simp [hc]
      have hysub : ∀ c ∈ y, c ∈ lastSeg := by
        intro c hc
        rw [heqls]
        simp [hc]
      refine ⟨?_, ?_, ?_, ?_, ?_⟩
      · intro c hc
        rw [heqp]
        rcases List.mem_append.mp hc with hc | hc
        · simp [hc]
        · rcases List.mem_cons.mp hc with rfl | hc
          · simp
          · simp [hxsub c hc]
      · intro c hc
        rw [heqp]
        simp [hysub c hc]
      · unfold pathParamsOk
        have hxs : '/' ∉ x := fun hm => hls (hxsub _ hm)
        rw [rsplitOnce_append pre hxs]
        exact hxns
      · exact fun hm => hls (hysub _ hm)
      · intro _
        refine ⟨by simp, ?_⟩
        rw [heqp]
        cases pre <;> rfl
    | none =>
      rw [hsc] at h
      obtain ⟨rfl, rfl⟩ := Prod.mk.injEq .. ▸ h
      refine ⟨fun c hc => hc, by simp, ?_, by simp, fun _ => ⟨?_, rfl⟩⟩
      · unfold pathParamsOk
        rw [hr]
        exact splitOnce_eq_none.mp hsc
      · rw [heqp]; simp
  | none =>
    have hnos : '/' ∉ p := rsplitOnce_eq_none.mp hr
    rw [hr] at h
    dsimp only at h
    cases hsc : splitOnce ';' p with
    | some xy =>
      obtain ⟨x, y⟩ := xy
      rw [hsc] at h
      obtain ⟨rfl, rfl⟩ := Prod.mk.injEq .. ▸ h
      obtain ⟨hxns, heqp⟩ := splitOnce_eq_some hsc
      have hxsub : ∀ c ∈ x, c ∈ p := by
        intro c hc
        rw [heqp]; simp [hc]
      have hysub : ∀ c ∈ y, c ∈ p := by
        intro c hc
        rw [heqp]; simp [hc]
      refine ⟨hxsub, hysub, ?_, fun hm => hnos (hysub _ hm),
        fun hm => absurd hm hnos⟩
      apply pathParamsOk_of_no_semi hxns
    | none =>
      rw [hsc] at h
      obtain ⟨rfl, rfl⟩ := Prod.mk.injEq .. ▸ h
      exact ⟨fun c hc => hc, by simp, pathParamsOk_of_no_semi (splitOnce_eq_none.mp hsc),
        by simp, fun hm => absurd hm hnos⟩

theorem urlsplitL_inv (l : List Char) :
    (urlsplitL l).scheme.all scheme_chars = true ∧
      toLowerL (urlsplitL l).scheme = (urlsplitL l).scheme ∧
      ((urlsplitL l).scheme = [] ∨
        ∃ c t, (urlsplitL l).scheme = c :: t ∧ isAsciiAlphaCh c = true) ∧
      (∀ c ∈ (urlsplitL l).netloc, ¬ isNetDelim c) ∧
      noCtl (urlsplitL l).netloc ∧
      '?' ∉ (urlsplitL l).path ∧ '#' ∉ (urlsplitL l).path ∧
      noCtl (urlsplitL l).path ∧
      ((urlsplitL l).netloc ≠ [] →
        ((urlsplitL l).path = [] ∨ ∃ t, (urlsplitL l).path = '/' :: t)) ∧
      '#' ∉ (urlsplitL l).query ∧ noCtl (urlsplitL l).query := by
  have hctl1 : noCtl (wsClean l) := fun c hc => wsClean_no_removed hc
  cases hss : schemeSplit (wsClean l) with
  | mk s u2 =>
  have hs := schemeSplit_eq hss
  have hu2sub : ∀ c ∈ u2, c ∈ wsClean l := by
    rcases hs with ⟨_, rfl⟩ | ⟨c, t, heq, _, _, _, _⟩
    · exact fun c hc => hc
    · intro x hx
      rw [heq]
      simp [hx]
  have hu2ctl : noCtl u2 := fun c hc => hctl1 c (hu2sub c hc)
  have hsall : s.all scheme_chars = true := by
    rcases hs with ⟨rfl, _⟩ | ⟨c, t, heq, hse, _, hall, _⟩
    · rfl
    · rw [hse, List.all_eq_true]
      intro x hx
      obtain ⟨y, hy, rfl⟩ := List.mem_map.mp hx
      exact scheme_chars_lowerC (List.all_eq_true.mp hall y hy)
  have hslow : toLowerL s = s := by
    rcases hs with ⟨rfl, _⟩ | ⟨c, t, _, hse, _, _, _⟩
    · rfl
    · rw [hse]
      exact toLowerL_idem _
  have hshead : s = [] ∨ ∃ c2 t2, s = c2 :: t2 ∧ isAsciiAlphaCh c2 = true := by
    rcases hs with ⟨rfl, _⟩ | ⟨c, t, _, hse, hca, _, _⟩
    · exact Or.inl rfl
    · right
      exact ⟨lowerC c, toLowerL t, by rw [hse]; rfl, isAsciiAlphaCh_lowerC hca⟩
  cases hns : netlocSplit u2 with
  | mk nl u3 =>
  have hnl := netlocSplit_eq hns
  have hnlsub : ∀ c ∈ nl, c ∈ u2 := by
    rcases hnl with ⟨rfl, _⟩ | ⟨rest, heq, htn⟩
    · simp
    · intro c hc
      obtain ⟨heq2, _, _⟩ := takeNetloc_eq htn
      rw [heq, heq2]
      simp [hc]
  have hu3sub : ∀ c ∈ u3, c ∈ u2 := by
    rcases hnl with ⟨_, rfl⟩ | ⟨rest, heq, htn⟩
    · exact fun c hc => hc
    · intro c hc
      obtain ⟨heq2, _, _⟩ := takeNetloc_eq htn
      rw [heq, heq2]
      simp [hc]
  have hnldelim : ∀ c ∈ nl, ¬ isNetDelim c := by
    rcases hnl with ⟨rfl, _⟩ | ⟨rest, heq, htn⟩
    · simp
    · exact (takeNetloc_eq htn).2.1
  have hu3shape : nl ≠ [] → (u3 = [] ∨ ∃ c cs, u3 = c :: cs ∧ isNetDelim c) := by
    rcases hnl with ⟨rfl, _⟩ | ⟨rest, heq, htn⟩
    · intro hne
      exact absurd rfl hne
    · intro _
      exact (takeNetloc_eq htn).2.2
  cases hfs : fragSplit u3 with
  | mk u4 fr =>
  obtain ⟨hu4f, hu4eq, hu4head⟩ := fragSplit_eq hfs
  have hu4sub : ∀ c ∈ u4, c ∈ u3 := by
    rcases hu4eq with heq | ⟨rfl, _, _⟩
    · intro c hc
      rw [heq]
      simp [hc]
    · exact fun c hc => hc
  cases hqs : querySplit u4 with
  | mk pa qu =>
  obtain ⟨hpaq, hpaeq, hpahead⟩ := querySplit_eq hqs
  have hpasub : ∀ c ∈ pa, c ∈ u4 := by
    rcases hpaeq with heq | ⟨rfl, _, _⟩
    · intro c hc
      rw [heq]
      simp [hc]
    · exact fun c hc => hc
  have hqusub : ∀ c ∈ qu, c ∈ u4 := by
    rcases hpaeq with heq | ⟨_, rfl, _⟩
    · intro c hc
      rw [heq]
      simp [hc]
    · simp
  have hres : urlsplitL l = ⟨s, nl, pa, qu, fr⟩ := by
    unfold urlsplitL
    rw [hss]
    dsimp only
    rw [hns]
    dsimp only
    rw [hfs]
    dsimp only
    rw [hqs]
  rw [hres]
  refine ⟨hsall, hslow, hshead, hnldelim, fun c hc => hctl1 c (hu2sub c (hnlsub c hc)),
    hpaq, fun hm => hu4f (hpasub _ hm),
    fun c hc => hctl1 c (hu2sub c (hu3sub c (hu4sub c (hpasub c hc)))), ?_,
    fun hm => hu4f (hqusub _ hm),
    fun c hc => hctl1 c (hu2sub c (hu3sub c (hu4sub c (hqusub c hc))))⟩
  intro hnlne
  dsimp only at hnlne ⊢
  rcases hu3shape hnlne with rfl | ⟨c, cs, rfl, hcdelim⟩
  · left
    rcases hu4eq with heq | ⟨rfl, _, _⟩
    · exact absurd heq (by simp)
    · rcases hpaeq with heq | ⟨rfl, _, _⟩
      · exact absurd heq (by simp)
      · rfl
  · cases hpa : pa with
    | nil => exact Or.inl rfl
    | cons e es =>
      right
      rcases hpahead with h0 | h0
      · exact absurd (hpa ▸ h0) (by simp)
      · rcases hu4head with h1 | h1
        · rw [h1] at hpasub
          have := hpasub e (by rw [hpa]; simp)
          simp at this
        · have hheads : pa.head? = some c := by
            rw [h0, h1]
            rfl
          rw [hpa] at hheads
          simp only [List.head?_cons, Option.some.injEq] at hheads
          subst hheads
          unfold isNetDelim at hcdelim
          rcases hcdelim with rfl | rfl | rfl
          · exact ⟨es, rfl⟩
          · exact absurd (by rw [hpa]; simp : '?' ∈ pa) hpaq
          · exact absurd (by rw [hpa]; simp : '#' ∈ pa) (fun hm => hu4f (hpasub _ hm))

theorem urlparseL_inv (l : List Char) : ParseInv (urlparseL l) := by
  obtain ⟨hsall, hslow, hshead, hnldelim, hnlctl, hpq, hpf, hpctl, hphead,
    hqf, hqctl⟩ := urlsplitL_inv l
  unfold urlparseL
  by_cases hcond :
      (uses_params.contains (urlsplitL l).scheme &&
        (urlsplitL l).path.contains ';') = true
  · rw [if_pos hcond]
    obtain ⟨huse, hsemi⟩ := Bool.and_eq_true .. ▸ hcond
    cases hps : splitparams (urlsplitL l).path with
    | mk a b =>
    obtain ⟨hasub, hbsub, hapok, hbns, hslashcase⟩ := splitparams_out hps
    have hsemimem : ';' ∈ (urlsplitL l).path := by
      rw [List.contains_eq_any_beq, List.any_eq_true] at hsemi
      obtain ⟨x, hx, hbeq⟩ := hsemi
      have : ';' = x := by simpa using hbeq
      rw [this]
      exact hx
    have hpne : (urlsplitL l).path ≠ [] := by
      intro h0
      rw [h0] at hsemimem
      simp at hsemimem
    have hheadcase : (urlsplitL l).netloc ≠ [] → ∃ t2, a = '/' :: t2 := by
      intro hnl
      rcases hphead hnl with h0 | ⟨t2, ht2⟩
      · exact absurd h0 hpne
      · have hsl : '/' ∈ (urlsplitL l).path := by
          rw [ht2]
          simp
        obtain ⟨hane, hahead⟩ := hslashcase hsl
        cases ha : a with
        | nil => exact absurd ha hane
        | cons e es =>
          rw [ha, ht2] at hahead
          simp only [List.head?_cons, Option.some.injEq] at hahead
          subst hahead
          exact ⟨es, rfl⟩
    dsimp only
    refine ⟨hsall, hslow, hshead, hnldelim, hnlctl,
      fun hm => hpq (hasub _ hm), fun hm => hpf (hasub _ hm),
      fun c hc => hpctl c (hasub c hc), ?_, fun _ => hapok,
      ⟨hbns, fun hm => hpq (hbsub _ hm), fun hm => hpf (hbsub _ hm)⟩,
      fun c hc => hpctl c (hbsub c hc),
      fun hnot => absurd huse hnot, fun hnl _ => hheadcase hnl,
      hqf, hqctl⟩
    intro hnl
    exact Or.inr (hheadcase hnl)
  · rw [if_neg hcond]
    refine ⟨hsall, hslow, hshead, hnldelim, hnlctl, hpq, hpf, hpctl, hphead, ?_,
      ⟨by simp, by simp, by simp⟩, by intro c hc; simp at hc,
      fun _ => rfl, fun _ h => absurd rfl h, hqf, hqctl⟩
    intro huse
    apply pathParamsOk_of_no_semi
    intro hm
    apply hcond
    rw [huse, Bool.true_and, List.contains_eq_any_beq, List.any_eq_true]
    exact ⟨';', hm, by simp⟩

/-! ### The canonicalization pipeline in closed form -/

theorem is_valid_url_parts {u : String} (h : is_valid_url u = true) :
    netlocBracketMismatch (urlparseL u.toList).netloc = false ∧
      (urlparseL u.toList).scheme ≠ [] ∧ (urlparseL u.toList).netloc ≠ [] := by
  unfold is_valid_url at h
  dsimp only at h
  split_ifs at h with hb
  simp only [Bool.and_eq_true, Bool.not_eq_true'] at h
  have h1 : (urlparseL u.toList).scheme ≠ [] := by
    intro h0
    rw [h0] at h
    simp at h
  have h2 : (urlparseL u.toList).netloc ≠ [] := by
    intro h0
    rw [h0] at h
    simp at h
  exact ⟨by simpa using hb, h1, h2⟩

theorem parseInv_refragment (r : ParseResult) (q2 f2 : List Char)
    (hinv : ParseInv r) (hq2f : '#' ∉ q2) (hq2ctl : noCtl q2) :
    ParseInv ⟨r.scheme, r.netloc, r.path, r.params, q2, f2⟩ :=
  ⟨hinv.scheme_all, hinv.scheme_low, hinv.scheme_head, hinv.netloc_delim,
   hinv.netloc_ctl, hinv.path_q, hinv.path_f, hinv.path_ctl, hinv.path_head,
   hinv.path_semi, hinv.params_free, hinv.params_ctl, hinv.params_use,
   hinv.params_path, hq2f, hq2ctl⟩

theorem scheme_head_of_ne {r : ParseResult} (hinv : ParseInv r)
    (hne : r.scheme ≠ []) :
    ∃ c t, r.scheme = c :: t ∧ isAsciiAlphaCh c = true := by
  rcases hinv.scheme_head with h0 | h0
  · exact absurd h0 hne
  · exact h0

/-- `clean_url(normalize_url(u))` in closed form for a valid URL: the
canonical string is the unparse of the URL's components with the
fragment dropped and the query run through the `utm_` substitution. -/
theorem canonical_closed (u : String) (hvalid : is_valid_url u = true) :
    canonicalize u =
      ⟨urlunparseL ⟨(urlparseL u.toList).scheme, (urlparseL u.toList).netloc,
        (urlparseL u.toList).path, (urlparseL u.toList).params,
        reSubUtm (urlparseL u.toList).query, []⟩⟩ := by
  obtain ⟨hmis, hsne, hnne⟩ := is_valid_url_parts hvalid
  have hinv := urlparseL_inv u.toList
  have hinv' := parseInv_refragment (urlparseL u.toList) (urlparseL u.toList).query []
    hinv hinv.query_f hinv.query_ctl
  have hw : (normalize_url u).toList =
      urlunparseL ⟨(urlparseL u.toList).scheme, (urlparseL u.toList).netloc,
        (urlparseL u.toList).path, (urlparseL u.toList).params,
        (urlparseL u.toList).query, []⟩ := rfl
  have hrt := urlparse_roundtrip (urlparseL u.toList).scheme
    (urlparseL u.toList).netloc (urlparseL u.toList).path
    (urlparseL u.toList).params (urlparseL u.toList).query hinv'
    (scheme_head_of_ne hinv hsne) hnne
  show clean_url (normalize_url u) = _
  unfold clean_url
  rw [hw, hrt]

/-- Reparsing the canonical string of a valid URL recovers its
components (query cleaned, fragment empty). -/
theorem canonical_parse (u : String) (hvalid : is_valid_url u = true) :
    urlparseL (canonicalize u).toList =
      ⟨(urlparseL u.toList).scheme, (urlparseL u.toList).netloc,
        (urlparseL u.toList).path, (urlparseL u.toList).params,
        reSubUtm (urlparseL u.toList).query, []⟩ := by
  obtain ⟨hmis, hsne, hnne⟩ := is_valid_url_parts hvalid
  have hinv := urlparseL_inv u.toList
  have hq2f : '#' ∉ reSubUtm (urlparseL u.toList).query :=
    fun hm => hinv.query_f (reSubUtm_subset _ hm)
  have hq2ctl : noCtl (reSubUtm (urlparseL u.toList).query) :=
    fun c hc => hinv.query_ctl c (reSubUtm_subset _ hc)
  have hinv' := parseInv_refragment (urlparseL u.toList)
    (reSubUtm (urlparseL u.toList).query) [] hinv hq2f hq2ctl
  have hrt := urlparse_roundtrip (urlparseL u.toList).scheme
    (urlparseL u.toList).netloc (urlparseL u.toList).path
    (urlparseL u.toList).params (reSubUtm (urlparseL u.toList).query) hinv'
    (scheme_head_of_ne hinv hsne) hnne
  rw [canonical_closed u hvalid]
  exact hrt

/-- The canonical string of a valid URL is itself valid. -/
theorem canonical_valid (u : String) (hvalid : is_valid_url u = true) :
    is_valid_url (canonicalize u) = true := by
  obtain ⟨hmis, hsne, hnne⟩ := is_valid_url_parts hvalid
  unfold is_valid_url
  rw [canonical_parse u hvalid]
  dsimp only
  rw [hmis]
  simp only [Bool.false_eq_true, if_false, Bool.and_eq_true, Bool.not_eq_true']
  constructor
  · cases hs : (urlparseL u.toList).scheme
    · exact absurd hs hsne
    · rfl
  · cases hn : (urlparseL u.toList).netloc
    · exact absurd hn hnne
    · rfl

/-! ### Behaviour of the `utm_` substitution on well-formed query strings -/

/-- `&`-joined query parameters, as Python assembles them. -/
def joinAmp : List (List Char) → List Char
  | [] => []
  | [p] => p
  | p :: ps => p ++ '&' :: joinAmp ps

/-- A parameter the regex deletes whole: `utm_` + letters + `=` + a
`&`-free value. -/
def noiseParam (p : List Char) : Bool := matchUtm p = some []

/-- The pattern's key shape `utm_[a-zA-Z]+=` starts right here. -/
def utmKeyAt : List Char → Bool
  | 'u' :: 't' :: 'm' :: '_' :: r =>
    !(r.takeWhile isAsciiAlphaCh).isEmpty &&
      ((r.dropWhile isAsciiAlphaCh).head? == some '=')
  | _ => false

/-- No position of the parameter starts the key shape, so the scan
keeps every character. -/
def utmClean : List Char → Bool
  | [] => true
  | c :: cs => !utmKeyAt (c :: cs) && utmClean cs

/-- The last parameter, if any, is not noise (otherwise the scan leaves
a dangling `&`). -/
def lastNotNoise : List (List Char) → Prop
  | [] => True
  | [p] => noiseParam p = false
  | _ :: ps => lastNotNoise ps

theorem matchUtm_append_none (t X : List Char)
    (hamp : '&' ∉ t) (hkey : utmKeyAt t = false)
    (hX : X = [] ∨ ∃ rest, X = '&' :: rest) :
    matchUtm (t ++ X) = none := by
  cases hm : matchUtm (t ++ X) with
  | none => rfl
  | some r =>
    exfalso
    -- a successful match forces the full key shape inside `t`
    unfold matchUtm at hm
    split at hm
    · rename_i z heq
      -- t ++ X = 'u' :: 't' :: 'm' :: '_' :: z
      have hts : ∃ t4, t = 'u' :: 't' :: 'm' :: '_' :: t4 ∧ z = t4 ++ X := by
        match t, heq with
        | [], heq =>
          rcases hX with rfl | ⟨rest, rfl⟩
          · simp at heq
          · rw [List.nil_append] at heq
            exact absurd (List.cons.injEq .. ▸ heq).1 (by decide)
        | [c1], heq =>
          rcases hX with rfl | ⟨rest, rfl⟩
          · simp at heq
          · simp only [List.cons_append, List.nil_append, List.cons.injEq] at heq
            exact absurd heq.2.1 (by decide)
        | [c1, c2], heq =>
          rcases hX with rfl | ⟨rest, rfl⟩
          · simp at heq
          · simp only [List.cons_append, List.nil_append, List.cons.injEq] at heq
            exact absurd heq.2.2.1 (by decide)
        | [c1, c2, c3], heq =>
          rcases hX with rfl | ⟨rest, rfl⟩
          · simp at heq
          · simp only [List.cons_append, List.nil_append, List.cons.injEq] at heq
            exact absurd heq.2.2.2.1 (by decide)
        | c1 :: c2 :: c3 :: c4 :: t4, heq =>
          simp only [List.cons_append, List.cons.injEq] at heq
          obtain ⟨rfl, rfl, rfl, rfl, hz⟩ := heq
          exact ⟨t4, rfl, hz.symm⟩
      obtain ⟨t4, rfl, rfl⟩ := hts
      have hamp4 : '&' ∉ t4 := fun hmem => hamp (by simp [hmem])
      -- the match's `=` must already sit inside `t4`
      have hdrop : ¬ (t4.dropWhile isAsciiAlphaCh).isEmpty = true := by
        intro hemp
        have hall : ∀ c ∈ t4, isAsciiAlphaCh c = true := by
          intro c hc
          have := List.dropWhile_eq_nil_iff.mp (List.isEmpty_iff.mp hemp)
          exact this c hc
        rw [List.dropWhile_append_of_pos hall] at hm
        rcases hX with rfl | ⟨rest, rfl⟩
        · simp at hm
        · rw [List.dropWhile_cons_of_neg (by decide)] at hm
          split_ifs at hm
          exact Option.noConfusion hm
      have hdropeq : (t4 ++ X).dropWhile isAsciiAlphaCh =
          t4.dropWhile isAsciiAlphaCh ++ X := by
        rw [List.dropWhile_append]
        rw [if_neg hdrop]
      have htake : (t4 ++ X).takeWhile isAsciiAlphaCh =
          t4.takeWhile isAsciiAlphaCh := by
        rw [List.takeWhile_append]
        rw [if_neg]
        intro hlen
        apply hdrop
        have := List.takeWhile_append_dropWhile isAsciiAlphaCh t4
        have hlen2 := congrArg List.length this
        rw [List.length_append] at hlen2
        have : (t4.dropWhile isAsciiAlphaCh).length = 0 := by omega
        simp [List.isEmpty_iff, List.length_eq_zero.mp this]
      rw [htake, hdropeq] at hm
      split_ifs at hm with hemp
      -- the head of `dropWhile t4 ++ X` must be '='
      cases hd : t4.dropWhile isAsciiAlphaCh with
      | nil => exact hdrop (by simp [hd])
      | cons d ds =>
        rw [hd] at hm
        rw [List.cons_append] at hm
        split at hm
        · rename_i r2 heq2
          have hdeq : d = '=' := (List.cons.injEq .. ▸ heq2).1
          have hkey2 : utmKeyAt ('u' :: 't' :: 'm' :: '_' :: t4) = true := by
            show (!(t4.takeWhile isAsciiAlphaCh).isEmpty &&
              ((t4.dropWhile isAsciiAlphaCh).head? == some '=')) = true
            rw [Bool.and_eq_true]
            constructor
            · simpa using hemp
            · rw [hd, hdeq]
              rfl
          rw [hkey2] at hkey
          exact absurd hkey (by simp)
        · exact absurd hm (by simp)
    · exact absurd hm (by simp)

theorem matchUtm_noise_amp (p rest : List Char)
    (hnoise : noiseParam p = true) (hamp : '&' ∉ p) :
    matchUtm (p ++ '&' :: rest) = some rest := by
  have hn : matchUtm p = some [] := of_decide_eq_true hnoise
  unfold matchUtm at hn
  split at hn
  · rename_i r
    split_ifs at hn with hemp
    · split at hn
      · rename_i r2 heq
        -- the value part of the parameter is `&`-free
        have hclean : ∀ c ∈ r2, (fun c => !(c = '&')) c = true := by
          split at hn
          · rename_i r4 heq4
            exfalso
            have hsub := (List.dropWhile_sublist (l := r2)
              (fun c => !(c = '&'))).subset
            rw [heq4] at hsub
            have h1 : '&' ∈ r2 := hsub (by simp)
            have h2 : '&' ∈ List.dropWhile isAsciiAlphaCh r := by
              rw [heq]; simp [h1]
            have h3 : '&' ∈ r := (List.dropWhile_sublist _).subset h2
            exact hamp (by simp [h3])
          · have hr3 : List.dropWhile (fun c => !(c = '&')) r2 = [] :=
              Option.some.inj hn
            exact List.dropWhile_eq_nil_iff.mp hr3
        -- now compute the match on the extended string
        have htake : (r ++ '&' :: rest).takeWhile isAsciiAlphaCh =
            r.takeWhile isAsciiAlphaCh := by
          rw [List.takeWhile_append]
          rw [if_neg]
          intro hlen
          have := List.takeWhile_append_dropWhile isAsciiAlphaCh r
          have hlen2 := congrArg List.length this
          rw [List.length_append] at hlen2
          have hz : (r.dropWhile isAsciiAlphaCh).length = 0 := by omega
          rw [List.length_eq_zero.mp hz] at heq
          exact List.noConfusion heq
        have hdropne : ¬ (r.dropWhile isAsciiAlphaCh).isEmpty = true := by
          rw [heq]; simp
        have hdropeq : (r ++ '&' :: rest).dropWhile isAsciiAlphaCh =
            '=' :: (r2 ++ '&' :: rest) := by
          rw [List.dropWhile_append]
          rw [if_neg hdropne, heq]
          rfl
        show (if ((r ++ '&' :: rest).takeWhile isAsciiAlphaCh).isEmpty then none
          else
            match (r ++ '&' :: rest).dropWhile isAsciiAlphaCh with
            | '=' :: q =>
              (match q.dropWhile (fun c => !(c = '&')) with
               | '&' :: r4 => some r4
               | r3 => some r3)
            | _ => none) = some rest
        rw [htake, hdropeq]
        rw [if_neg hemp]
        show (match (r2 ++ '&' :: rest).dropWhile (fun c => !(c = '&')) with
          | '&' :: r4 => some r4
          | r3 => some r3) = some rest
        have hinner : (r2 ++ '&' :: rest).dropWhile (fun c => !(c = '&')) =
            '&' :: rest := by
          rw [List.dropWhile_append_of_pos hclean]
          rw [List.dropWhile_cons_of_neg (by simp)]
        rw [hinner]
        rfl
      · exact absurd hn (by simp)
  · exact absurd hn (by simp)

theorem reSub_clean_amp (t rest : List Char)
    (hclean : utmClean t = true) (hamp : '&' ∉ t) :
    reSubUtm (t ++ '&' :: rest) = t ++ '&' :: reSubUtm rest := by
  induction t with
  | nil =>
    rw [List.nil_append, List.nil_append]
    rw [reSubUtm_cons_nomatch]
    exact matchUtm_append_none [] ('&' :: rest) (by simp) rfl
      (Or.inr ⟨rest, rfl⟩)
  | cons c cs ih =>
    have hclean2 : utmClean cs = true := by
      unfold utmClean at hclean
      exact (Bool.and_eq_true .. ▸ hclean).2
    have hkey : utmKeyAt (c :: cs) = false := by
      unfold utmClean at hclean
      have := (Bool.and_eq_true .. ▸ hclean).1
      simpa using this
    have hamp2 : '&' ∉ cs := fun hmem => hamp (by simp [hmem])
    have hnm : matchUtm ((c :: cs) ++ '&' :: rest) = none :=
      matchUtm_append_none (c :: cs) ('&' :: rest) hamp hkey
        (Or.inr ⟨rest, rfl⟩)
    rw [List.cons_append] at hnm ⊢
    rw [reSubUtm_cons_nomatch hnm]
    rw [ih hclean2 hamp2]
    rfl

theorem reSub_clean_end (t : List Char)
    (hclean : utmClean t = true) (hamp : '&' ∉ t) :
    reSubUtm t = t := by
  induction t with
  | nil => rfl
  | cons c cs ih =>
    have hclean2 : utmClean cs = true := by
      unfold utmClean at hclean
      exact (Bool.and_eq_true .. ▸ hclean).2
    have hkey : utmKeyAt (c :: cs) = false := by
      unfold utmClean at hclean
      have := (Bool.and_eq_true .. ▸ hclean).1
      simpa using this
    have hamp2 : '&' ∉ cs := fun hmem => hamp (by simp [hmem])
    have hnm : matchUtm (c :: cs) = none := by
      have := matchUtm_append_none (c :: cs) [] hamp hkey (Or.inl rfl)
      rwa [List.append_nil] at this
    rw [reSubUtm_cons_nomatch hnm]
    rw [ih hclean2 hamp2]

theorem reSub_noise_amp (p rest : List Char)
    (hnoise : noiseParam p = true) (hamp : '&' ∉ p) :
    reSubUtm (p ++ '&' :: rest) = reSubUtm rest := by
  cases p with
  | nil => exact absurd hnoise (by decide)
  | cons c cs =>
    have hm : matchUtm ((c :: cs) ++ '&' :: rest) = some rest :=
      matchUtm_noise_amp (c :: cs) rest hnoise hamp
    rw [List.cons_append] at hm ⊢
    rw [reSubUtm_cons_match hm]

theorem joinAmp_cons (p : List Char) (ps : List (List Char)) (h : ps ≠ []) :
    joinAmp (p :: ps) = p ++ '&' :: joinAmp ps := by
  cases ps with
  | nil => exact absurd rfl h
  | cons q qs => rfl

theorem filter_ne_nil_of_lastNotNoise (ps : List (List Char))
    (hne : ps ≠ []) (hlast : lastNotNoise ps) :
    ps.filter (fun p => !noiseParam p) ≠ [] := by
  induction ps with
  | nil => exact absurd rfl hne
  | cons p qs ih =>
    cases qs with
    | nil =>
      have hp : noiseParam p = false := hlast
      simp [List.filter_cons, hp]
    | cons q rs =>
      have hlast2 : lastNotNoise (q :: rs) := hlast
      have := ih (by simp) hlast2
      intro hcontra
      rw [List.filter_cons] at hcontra
      split_ifs at hcontra with hp
      exact this hcontra

theorem utmKeyAt_of_match {l r : List Char} (h : matchUtm l = some r) :
    utmKeyAt l = true := by
  unfold matchUtm at h
  split at h
  · rename_i rest
    split_ifs at h with hemp
    · split at h
      · rename_i r2 heq
        show (!(rest.takeWhile isAsciiAlphaCh).isEmpty &&
          ((rest.dropWhile isAsciiAlphaCh).head? == some '=')) = true
        rw [Bool.and_eq_true]
        exact ⟨by simpa using hemp, by rw [heq]; rfl⟩
      · exact absurd h (by simp)
  · exact absurd h (by simp)

/-- On a query of `&`-joined parameters, each either deleted whole by the
pattern or containing no match at all, `re.sub` removes exactly the noise
parameters, provided the last parameter is kept. -/
theorem reSub_join (ps : List (List Char))
    (hw : ∀ p ∈ ps, '&' ∉ p ∧ (noiseParam p = true ∨ utmClean p = true))
    (hlast : lastNotNoise ps) :
    reSubUtm (joinAmp ps) = joinAmp (ps.filter (fun p => !noiseParam p)) := by
  induction ps with
  | nil => rfl
  | cons p qs ih =>
    cases qs with
    | nil =>
      have hp : noiseParam p = false := hlast
      have hcl : utmClean p = true := by
        rcases (hw p (by simp)).2 with h | h
        · rw [hp] at h; exact absurd h (by simp)
        · exact h
      show reSubUtm p = joinAmp (List.filter (fun p => !noiseParam p) [p])
      rw [List.filter_cons]
      rw [if_pos (by simp [hp])]
      exact reSub_clean_end p hcl (hw p (by simp)).1
    | cons q rs =>
      have hlast2 : lastNotNoise (q :: rs) := hlast
      have hw2 : ∀ x ∈ q :: rs, '&' ∉ x ∧
          (noiseParam x = true ∨ utmClean x = true) := by
        intro x hx
        exact hw x (by simp [hx])
      have hih := ih hw2 hlast2
      rw [joinAmp_cons p (q :: rs) (by simp)]
      rcases (hw p (by simp)).2 with hp | hp
      · rw [reSub_noise_amp p _ hp (hw p (by simp)).1]
        rw [hih]
        have hf : List.filter (fun x => !noiseParam x) (p :: q :: rs) =
            List.filter (fun x => !noiseParam x) (q :: rs) := by
          rw [List.filter_cons]
          rw [if_neg (by simp [hp])]
        rw [hf]
      · have hpn : noiseParam p = false := by
          cases hn : noiseParam p with
          | false => rfl
          | true =>
            exfalso
            have hkey := utmKeyAt_of_match (of_decide_eq_true hn)
            cases p with
            | nil => exact absurd hn (by decide)
            | cons c cs =>
              unfold utmClean at hp
              have h1 := (Bool.and_eq_true .. ▸ hp).1
              rw [hkey] at h1
              exact absurd h1 (by simp)
        rw [reSub_clean_amp p _ hp (hw p (by simp)).1]
        rw [hih]
        have hf : List.filter (fun x => !noiseParam x) (p :: q :: rs) =
            p :: List.filter (fun x => !noiseParam x) (q :: rs) := by
          rw [List.filter_cons]
          rw [if_pos (by simp [hpn])]
        rw [hf]
        rw [joinAmp_cons p _ (filter_ne_nil_of_lastNotNoise (q :: rs)
          (by simp) hlast2)]

theorem reSub_fix_clean (ps : List (List Char))
    (h : ∀ p ∈ ps, '&' ∉ p ∧ utmClean p = true) :
    reSubUtm (joinAmp ps) = joinAmp ps := by
  induction ps with
  | nil => rfl
  | cons p qs ih =>
    cases qs with
    | nil => exact reSub_clean_end p (h p (by simp)).2 (h p (by simp)).1
    | cons q rs =>
      rw [joinAmp_cons p (q :: rs) (by simp)]
      rw [reSub_clean_amp p _ (h p (by simp)).2 (h p (by simp)).1]
      rw [ih (fun x hx => h x (by simp [hx]))]

/-- C5, counterexample: two URLs that differ only in a `utm_` query
parameter do not canonicalize to the same string: when the noise
parameter is last, the substitution leaves the separating `&` behind. -/
theorem C5_counterexample :
    canonicalize "https://a.com/p?id=7&utm_source=x" = "https://a.com/p?id=7&" ∧
    canonicalize "https://a.com/p?id=7" = "https://a.com/p?id=7" ∧
    canonicalize "https://a.com/p?id=7&utm_source=x" ≠
      canonicalize "https://a.com/p?id=7" := by
  refine ⟨by decide, by decide, by decide⟩

/-- C5 (corrected): canonicalization is fragment-insensitive — two valid
URLs with equal scheme, netloc, path, params and query canonicalize
identically whatever their fragments — and on a query of well-formed
`&`-joined parameters whose last parameter is kept, it removes exactly
the noise parameters, preserving the relative order of the rest. -/
theorem C5_amended :
    (∀ u1 u2 : String, is_valid_url u1 = true → is_valid_url u2 = true →
      (urlparseL u1.toList).scheme = (urlparseL u2.toList).scheme →
      (urlparseL u1.toList).netloc = (urlparseL u2.toList).netloc →
      (urlparseL u1.toList).path = (urlparseL u2.toList).path →
      (urlparseL u1.toList).params = (urlparseL u2.toList).params →
      (urlparseL u1.toList).query = (urlparseL u2.toList).query →
      canonicalize u1 = canonicalize u2) ∧
    (∀ (u : String) (ps : List (List Char)), is_valid_url u = true →
      (urlparseL u.toList).query = joinAmp ps →
      (∀ p ∈ ps, '&' ∉ p ∧ (noiseParam p = true ∨ utmClean p = true)) →
      lastNotNoise ps →
      canonicalize u =
        ⟨urlunparseL ⟨(urlparseL u.toList).scheme,
          (urlparseL u.toList).netloc, (urlparseL u.toList).path,
          (urlparseL u.toList).params,
          joinAmp (ps.filter (fun p => !noiseParam p)), []⟩⟩) := by
  constructor
  · intro u1 u2 hv1 hv2 hs hn hp hpar hq
    rw [canonical_closed u1 hv1, canonical_closed u2 hv2, hs, hn, hp, hpar, hq]
  · intro u ps hv hq hw hlast
    rw [canonical_closed u hv, hq, reSub_join ps hw hlast]

/-- Witness for C5_amended: a pair differing only in the fragment, and a
URL whose leading noise parameter is removed cleanly. -/
theorem C5_witness :
    canonicalize "https://a.com/p?id=7#frag" = canonicalize "https://a.com/p?id=7#other" ∧
    canonicalize "https://a.com/p?utm_source=x&id=7" = "https://a.com/p?id=7" := by
  constructor
  · exact C5_amended.1 "https://a.com/p?id=7#frag" "https://a.com/p?id=7#other"
      (by decide) (by decide) (by decide) (by decide) (by decide) (by decide)
      (by decide)
  · have h := C5_amended.2 "https://a.com/p?utm_source=x&id=7"
      ["utm_source=x".toList, "id=7".toList]
      (by decide) (by decide) (by decide)
      (show noiseParam "id=7".toList = false by decide)
    rw [h]
    decide

/-- C6, counterexample: `is_valid_url` accepts a URL whose scheme is
neither `http` nor `https`. -/
theorem C6_counterexample :
    is_valid_url "ftp://files.example.com/pub" = true ∧
    (urlparseL "ftp://files.example.com/pub".toList).scheme ≠ "http".toList ∧
    (urlparseL "ftp://files.example.com/pub".toList).scheme ≠ "https".toList := by
  refine ⟨by decide, by decide, by decide⟩

/-- C6 (corrected): validation checks only that the parsed URL has a
non-empty scheme and a non-empty netloc (and catches the bracket
`ValueError`); it never inspects the scheme's value, so scheme-only URLs
such as `javascript:` and `mailto:` are rejected for lacking a netloc
while any `scheme://host` URL — `ftp://` included — is accepted. -/
theorem C6_amended :
    (∀ u : String, is_valid_url u = true →
      (urlparseL u.toList).scheme ≠ [] ∧ (urlparseL u.toList).netloc ≠ []) ∧
    (∀ u : String, netlocBracketMismatch (urlparseL u.toList).netloc = false →
      (urlparseL u.toList).scheme ≠ [] → (urlparseL u.toList).netloc ≠ [] →
      is_valid_url u = true) ∧
    is_valid_url "javascript:alert(1)" = false ∧
    is_valid_url "mailto:someone@example.com" = false ∧
    is_valid_url "ftp://ftp.example.com/file" = true := by
  refine ⟨?_, ?_, by decide, by decide, by decide⟩
  · intro u h
    exact (is_valid_url_parts h).2
  · intro u hb hs hn
    unfold is_valid_url
    dsimp only
    rw [hb]
    simp only [Bool.false_eq_true, if_false, Bool.and_eq_true, Bool.not_eq_true']
    constructor
    · cases hsc : (urlparseL u.toList).scheme
      · exact absurd hsc hs
      · rfl
    · cases hnc : (urlparseL u.toList).netloc
      · exact absurd hnc hn
      · rfl

/-- Witness for C6_amended at concrete URLs. -/
theorem C6_witness :
    ((urlparseL "https://a.com/x".toList).scheme ≠ [] ∧
      (urlparseL "https://a.com/x".toList).netloc ≠ []) ∧
    is_valid_url "ftp://files.example.com/a" = true := by
  constructor
  · exact C6_amended.1 "https://a.com/x" (by decide)
  · exact C6_amended.2.1 "ftp://files.example.com/a" (by decide) (by decide)
      (by decide)

/-- C9, counterexample: canonicalization is not idempotent on every valid
URL — removing a match can join its neighbours into a fresh `utm_` match
that only a second pass removes. -/
theorem C9_counterexample :
    is_valid_url "https://a.com/p?ututm_p=1&m_q=2&r=3" = true ∧
    canonicalize (canonicalize "https://a.com/p?ututm_p=1&m_q=2&r=3") ≠
      canonicalize "https://a.com/p?ututm_p=1&m_q=2&r=3" := by
  refine ⟨by decide, by decide⟩

/-- C9 (corrected): on every valid URL whose query is a well-formed
`&`-joined parameter list (each parameter either removed whole by the
pattern or match-free) whose last parameter is kept, canonicalization is
idempotent. -/
theorem C9_amended (u : String) (ps : List (List Char))
    (hvalid : is_valid_url u = true)
    (hq : (urlparseL u.toList).query = joinAmp ps)
    (hw : ∀ p ∈ ps, '&' ∉ p ∧ (noiseParam p = true ∨ utmClean p = true))
    (hlast : lastNotNoise ps) :
    canonicalize (canonicalize u) = canonicalize u := by
  have h2 := canonical_valid u hvalid
  have hpar := canonical_parse u hvalid
  have hfix : reSubUtm (reSubUtm (urlparseL u.toList).query) =
      reSubUtm (urlparseL u.toList).query := by
    rw [hq, reSub_join ps hw hlast]
    apply reSub_fix_clean
    intro p hp
    have hmem := List.mem_filter.mp hp
    have h3 := hw p hmem.1
    refine ⟨h3.1, ?_⟩
    rcases h3.2 with h4 | h4
    · rw [h4] at hmem
      simp at hmem
    · exact h4
  rw [canonical_closed (canonicalize u) h2, hpar]
  dsimp only
  rw [hfix]
  exact (canonical_closed u hvalid).symm

/-- Witness for C9_amended at a concrete URL with one noise and one kept
parameter. -/
theorem C9_witness :
    canonicalize (canonicalize "https://a.com/p?utm_source=x&id=7") =
      canonicalize "https://a.com/p?utm_source=x&id=7" :=
  C9_amended "https://a.com/p?utm_source=x&id=7"
    ["utm_source=x".toList, "id=7".toList]
    (by decide) (by decide) (by decide)
    (show noiseParam "id=7".toList = false by decide)
